import Mathlib

/-!
# Verification of the parquet page encoder (`cpp/src/io/parquet/page_enc.cu`)

This file gives a shallow embedding, in Lean, of the device-side encode
pipeline of the parquet writer: the hybrid RLE/bit-packing encoder
(`RleEncode` / `PackLiterals`), the fragment statistics and dictionary
builder (`gpuInitPageFragments`), the page planner (`gpuInitPages`), the
page data encoder (`gpuEncodePages`), the compression decision
(`gpuDecideCompression`) and the compact-protocol header writer
(`cpw_put_*`).  Machine integers are modelled as `Nat` (with explicit
`% 2 ^ w` where overflow can occur), device buffers as functions
`Nat → Nat` or lists, and the cooperative thread groups are serialised:
every warp ballot / prefix sum is replaced by the function of the lane
values it computes, and atomic update sequences are modelled as folds
(with the claim order taken as an explicit parameter where the order is
observable).

Theorems named `C1_*` … `C10_*` settle the corresponding claims.
-/

namespace PageEnc

/-! ## Small machine-level helpers -/

/-- Position (1-based) of the least significant set bit of the low 32 bits
of `n`; `0` if the low 32 bits are all clear.  Models the CUDA `__ffs`
intrinsic on a `uint32_t`. -/
def ffs32Go : Nat → Nat → Nat
  | 0, _ => 0
  | k + 1, m => if m = 0 then 0 else if m % 2 = 1 then 1 else ffs32Go k (m / 2) + 1

/-- CUDA `__ffs` on a 32-bit value. -/
def ffs32 (n : Nat) : Nat := ffs32Go 32 (n % 2 ^ 32)

/-- CUDA `__funnelshift_r(lo, hi, s)`: the low 32 bits of
`(hi:lo) >> (s % 32)`. -/
def funnelShiftR (lo hi s : Nat) : Nat :=
  ((hi % 2 ^ 32) * 2 ^ 32 + lo % 2 ^ 32) >>> (s % 32) % 2 ^ 32

/-- CUDA `__popc` restricted to the low 32 bits. -/
def popc32 (n : Nat) : Nat := (Nat.bitIndices (n % 2 ^ 32)).length

/-- A 32-lane ballot: bit `t` is set when `f t` holds, `t < 32`. -/
def ballot32 (f : Nat → Bool) : Nat :=
  (List.range 32).foldl (fun acc t => acc + if f t then 2 ^ t else 0) 0

/-! ## Byte-region write log

`RleEncode` does not write its output strictly left-to-right: packed
literal bytes are stored before their run header byte is known.  The
output region is therefore modelled as a log of `(offset, byte)` writes,
most recent first. -/

/-- The byte finally visible at offset `i` (0 when never written). -/
def logByte (log : List (Nat × Nat)) (i : Nat) : Nat :=
  match log with
  | [] => 0
  | (p, b) :: rest => if p = i then b else logByte rest i

/-- The first `len` bytes of the region. -/
def logBytes (log : List (Nat × Nat)) (len : Nat) : List Nat :=
  (List.range len).map (logByte log)

/-- One past the highest offset ever written: the true number of bytes the
encoder touched, regardless of where its cursors ended up. -/
def logEnd (log : List (Nat × Nat)) : Nat :=
  log.foldr (fun pb m => max m (pb.1 + 1)) 0

/-- Append `bytes` sequentially starting at `ofs` (a `*p++ = x` sequence);
returns the log and the advanced cursor. -/
def logAppend : List (Nat × Nat) → Nat → List Nat → List (Nat × Nat) × Nat
  | log, ofs, [] => (log, ofs)
  | log, ofs, b :: rest => logAppend ((ofs, b) :: log) (ofs + 1) rest

/-! ## Page planner size thresholds (`gpuInitPages`, line 427)

`max_page_size = (rows_in_page * 2 >= ck_g.num_rows) ? 256 * 1024
               : (rows_in_page * 3 >= ck_g.num_rows) ? 384 * 1024 : 512 * 1024;`
-/

/-- The shrinking page-size threshold computed by `gpuInitPages` from the
rows already placed in the open page and the chunk's total row count. -/
def maxPageSize (rowsInPage ckNumRows : Nat) : Nat :=
  if rowsInPage * 2 ≥ ckNumRows then 256 * 1024
  else if rowsInPage * 3 ≥ ckNumRows then 384 * 1024
  else 512 * 1024

/-- Modelled from the spec (claim C4's words, not from the source): the
threshold is said to be 512 KiB while the page holds less than half of the
chunk's rows, 384 KiB once it holds at least half, and 256 KiB once it
holds at least two-thirds. -/
def claimPageSizeLimit (rowsInPage ckNumRows : Nat) : Nat :=
  if 3 * rowsInPage ≥ 2 * ckNumRows then 256 * 1024
  else if 2 * rowsInPage ≥ ckNumRows then 384 * 1024
  else 512 * 1024

/-- The page-boundary decision of `gpuInitPages` (line 428): cut before
adding the fragment when the chunk's rows are exhausted or the fragment
would push the page past the current threshold. -/
def pageCut (numRowsDone ckNumRows pageSize fragDataSize rowsInPage : Nat) : Bool :=
  decide (numRowsDone ≥ ckNumRows) ||
    decide (pageSize + fragDataSize > maxPageSize rowsInPage ckNumRows)

/-! ## Compact protocol writer (`cpw_put_uint32` / `cpw_put_int32` /
`cpw_put_fldh`, lines 973-1010) -/

/-- `cpw_put_uint32`: continuation-bit varint encoding, 7 payload bits per
byte, least significant group first. -/
def cpwPutUint32 (v : Nat) : List Nat :=
  if h : 0x7f < v then (v % 128 + 128) :: cpwPutUint32 (v / 128) else [v]
termination_by v
decreasing_by exact Nat.div_lt_self (by omega) (by omega)

/-- The zig-zag image `(v ^ -s) * 2 + s` computed by `cpw_put_int32`,
reinterpreted as the `uint32_t` handed to `cpw_put_uint32` (exact for the
`int32_t` domain `-2^31 ≤ v < 2^31`). -/
def zigzag32 (v : Int) : Nat := (if v < 0 then -2 * v - 1 else 2 * v).toNat % 2 ^ 32

/-- `cpw_put_int32`: zig-zag then varint. -/
def cpwPutInt32 (v : Int) : List Nat := cpwPutUint32 (zigzag32 v)

/-- `cpw_put_fldh`: a one-byte header packing the field-id delta in the
high nibble with the type tag when `cur < f ≤ cur + 15`, otherwise the
type byte followed by the zig-zag varint of the field id. -/
def cpwPutFldh (f cur : Int) (t : Nat) : List Nat :=
  if cur < f ∧ f ≤ cur + 15 then [((f - cur).toNat * 16 + t % 16) % 256]
  else t % 256 :: cpwPutInt32 f

/-- A standard varint reader, used to state round-trip facts about the
writer. -/
def varintDecode : List Nat → Nat
  | [] => 0
  | b :: rest => b % 128 + if 128 ≤ b % 256 then 128 * varintDecode rest else 0

/-- The inverse zig-zag map. -/
def zigzagDecode (n : Nat) : Int :=
  if n % 2 = 1 then -(((n : Int) + 1) / 2) else (n : Int) / 2

/-! ## The hybrid RLE/bit-packing encoder (`RleEncode`, lines 549-710,
with `PackLiterals`, lines 496-538, and `VlqEncode`, lines 483-491)

The encoder runs on a 128-lane cooperative group; lane-level ballots and
the single-lane scan are deterministic functions of the value buffer and
are transcribed directly.  `s->vals` is the 512-entry circular input
buffer, passed as a function `Nat → Nat` and always read at `pos % 512`.
-/

/-- `kRleRunMask[nbits-1]`: how many consecutive repeat flags are needed
before a repeat run is worth starting (line 476). -/
def kRleRunMask (i : Nat) : Nat :=
  [0x00ffffff, 0x0fff, 0x00ff, 0x3f, 0x0f, 0x0f, 0x7, 0x7,
   0x3, 0x3, 0x3, 0x3, 0x1, 0x1, 0x1, 0x1].getD i 0

/-- The loop of `VlqEncode`, made structural on a fuel bound (8 output
bytes cover any value below `2 ^ 56`; the argument is a 32-bit counter). -/
def vlqEncodeGo : Nat → Nat → List Nat
  | 0, v => [v % 256]
  | fuel + 1, v => if 0x7f < v then (v % 128 + 128) :: vlqEncodeGo fuel (v / 128) else [v % 256]

/-- `VlqEncode`: variable-length encoding of a run header. -/
def vlqEncodeBytes (v : Nat) : List Nat := vlqEncodeGo 8 v

/-- The persistent RLE state carried in `page_enc_state_s`: the output
write log, the output cursor `rle_out` (as an offset into the page's data
region), `rle_run`, `run_val`, `rle_pos`, `rle_numvals`. -/
structure RleSt where
  log : List (Nat × Nat)
  out : Nat
  run : Nat
  runVal : Nat
  pos : Nat
  numvals : Nat
  deriving Repr, DecidableEq

/-- The initial RLE state (`rle_run = rle_pos = rle_numvals = 0`, cursor
at `base`). -/
def rleInit (base : Nat) : RleSt :=
  { log := [], out := base, run := 0, runVal := 0, pos := 0, numvals := 0 }

/-- `PackLiterals` (lines 496-538): the writes performed when packing the
128-lane window `v` (lane `t` holding the value for position
`rle_pos + t`) at `w` bits per value, `count` values, into bytes starting
at offset `dst`.  Each lane-local OR tree of `SHFL_XOR` steps is
transcribed as the function of the lane values it computes; stores
truncate to a byte. -/
def packLiterals (dst : Nat) (v : Nat → Nat) (count w : Nat) : List (Nat × Nat) :=
  (List.range 128).foldr (fun t ws =>
    if w < 8 then
      if w ≤ 1 then
        let v1 := fun tt => v tt ||| v (tt ^^^ 1) <<< 1
        let v2 := fun tt => v1 tt ||| v1 (tt ^^^ 2) <<< 2
        let v3 := fun tt => v2 tt ||| v2 (tt ^^^ 4) <<< 4
        if t < count ∧ t &&& 0x7 = 0 then (dst + (t * w) >>> 3, v3 t % 256) :: ws else ws
      else if w ≤ 2 then
        let v1 := fun tt => v tt ||| v (tt ^^^ 1) <<< 2
        let v2 := fun tt => v1 tt ||| v1 (tt ^^^ 2) <<< 4
        if t < count ∧ t &&& 0x3 = 0 then (dst + (t * w) >>> 3, v2 t % 256) :: ws else ws
      else
        let v1 := fun tt => (v tt <<< 4) ||| (v (tt ^^^ 1) &&& 0xf)
        if t < count ∧ t &&& 0x1 = 0 then (dst + (t * w) >>> 3, v1 t % 256) :: ws else ws
    else if w < 12 then
      if t < count then (dst + t, v t % 256) :: ws else ws
    else if w < 16 then
      let v1 := fun tt => v tt ||| v (tt ^^^ 1) <<< 12
      if t < count ∧ t &&& 0x1 = 0 then
        (dst + (t >>> 1) * 3 + 0, v1 t % 256) ::
        (dst + (t >>> 1) * 3 + 1, v1 t >>> 8 % 256) ::
        (dst + (t >>> 1) * 3 + 2, v1 t >>> 16 % 256) :: ws
      else ws
    else
      if t < count then
        (dst + t * 2 + 0, v t % 256) :: (dst + t * 2 + 1, v t >>> 8 % 256) :: ws
      else ws) []

/-- The inner `while (idx_cur < 4)` scan of lines 591-605, measuring the
length of the repeat region that follows `rle_run_start`. -/
def rptScanGo (rptMap : Nat → Nat) (idxOfs : Nat) : Nat → Nat → Nat
  | 0, _ => 0
  | fuel + 1, idxCur =>
    if 4 ≤ idxCur then 0
    else
      let m0 := if idxCur < 4 then rptMap idxCur else 0
      let m1 := if idxCur < 3 then rptMap (idxCur + 1) else 0
      let mask := 0xffffffff ^^^ funnelShiftR m0 m1 idxOfs
      if mask ≠ 0 then ffs32 mask - 1 else 32 + rptScanGo rptMap idxOfs fuel (idxCur + 1)

/-- Emit a repeat-run: `VlqEncode` of the run code, then the run value in
one raw byte, or two when `nbits > 8` (lines 626-634 and 689-697). -/
def emitRepeat (st : RleSt) (runCode val nbits : Nat) : RleSt :=
  let bytes := vlqEncodeBytes runCode ++
    (val % 256 :: if 8 < nbits then [val >>> 8 % 256] else [])
  let (log', out') := logAppend st.log st.out bytes
  { st with log := log', out := out' }

/-- One iteration of the `while (rle_pos < numvals)` loop of `RleEncode`
(lines 554-703).  Returns the updated state and whether the loop `break`s.
Every shared-memory phase (the `rpt_map` ballots, the lane-0 scan, the
single-writer output blocks) is serialised in program order. -/
def rleIter (vals : Nat → Nat) (numvals nbits : Nat) (flush : Bool)
    (st : RleSt) : RleSt × Bool :=
  let v : Nat → Nat := fun t => vals ((st.pos + t) % 512)
  let rptMap : Nat → Nat := fun w =>
    ballot32 (fun j =>
      decide (st.pos + 32 * w + j + 1 < numvals) && decide (v (32 * w + j) = v (32 * w + j + 1)))
  -- lane-0 scan: compute (rle_lit_count, rle_rpt_count)
  let litRpt : Nat × Nat :=
    if st.run > 0 ∧ st.run % 2 = 0 then
      -- currently in a long repeat run
      let c32 := ballot32 (fun t => decide (4 ≤ t) || decide (rptMap t ≠ 0xffffffff))
      let lastIdx := ffs32 c32 - 1
      let rptCount0 := lastIdx * 32 +
        (if lastIdx < 4 then ffs32 (0xffffffff ^^^ rptMap lastIdx) else 0)
      let rptCount :=
        if rptCount0 ≠ 0 ∧ ((flush ∧ st.pos + rptCount0 + 1 = numvals) ∨
            rptCount0 < min (numvals - st.pos) 128) then rptCount0 + 1 else rptCount0
      (0, rptCount)
    else
      -- a repeat run can only start on a multiple of 8 values
      let needed := kRleRunMask (nbits - 1)
      let mask2 := ballot32 (fun t =>
        let idx8 := (t * 8) >>> 5
        let pos8 := (t * 8) &&& 0x1f
        let m0 := if idx8 < 4 then rptMap idx8 else 0
        let m1 := if idx8 < 3 then rptMap (idx8 + 1) else 0
        decide (funnelShiftR m0 m1 pos8 &&& needed = needed))
      let n := numvals - st.pos
      let runStart := if mask2 ≠ 0 then min ((ffs32 mask2 - 1) * 8) n else n
      let rptLen := if runStart < n then rptScanGo rptMap (runStart &&& 0x1f) 4 (runStart >>> 5) else 0
      (runStart, min rptLen (n - runStart))
  let sharedLit := litRpt.1
  let sharedRpt := litRpt.2
  -- local state after the shared scan
  let lit := sharedLit
  let rpt := sharedRpt
  -- block: currently in a repeat run (lines 614-638)
  let stA :=
    if st.run ≠ 0 ∧ st.run % 2 = 0 then
      let flushRun := rpt = 0 ∨ lit ≠ 0
      let contd := lit = 0
      let run1 := if contd then st.run + rpt * 2 else st.run
      let pos1 := if contd then st.pos + rpt else st.pos
      let rpt1 := if contd then 0 else rpt
      if flushRun ∨ (flush ∧ pos1 = numvals) then
        ({ emitRepeat { st with pos := pos1 } run1 st.runVal nbits with run := 0 }, rpt1)
      else
        ({ st with run := run1, pos := pos1 }, rpt1)
    else
      (st, rpt)
  let st1 := stA.1
  let rpt1 := stA.2
  -- block: process literals (lines 640-675)
  let stB :=
    if lit ≠ 0 ∨ (st1.run ≠ 0 ∧ rpt1 ≠ 0) then
      let needMore := !flush && decide (st1.pos + lit = numvals)
      let lit2 := if needMore then lit - min lit 24 else lit
      let stL :=
        if lit2 ≠ 0 then
          let litDiv8a := (lit2 + (if flush ∧ st1.pos + lit2 = numvals then 7 else 0)) >>> 3
          let defer := st1.run + litDiv8a * 2 > 0x7f
          let litDiv8 := if defer then 0x3f - (st1.run >>> 1) else litDiv8a
          let rpt2 := if defer then 0 else rpt1
          if litDiv8 ≠ 0 then
            let dst := st1.out + 1 + (st1.run >>> 1) * nbits
            let ws := packLiterals dst
              (fun t => if st1.pos + t < numvals then v t else 0) (litDiv8 * 8) nbits
            ({ st1 with log := ws.reverse ++ st1.log,
                        run := (st1.run + litDiv8 * 2) ||| 1,
                        pos := min (st1.pos + litDiv8 * 8) numvals }, rpt2)
          else
            (st1, rpt2)
        else
          (st1, rpt1)
      let st2 := stL.1
      let rpt2 := stL.2
      let st3 :=
        if st2.run ≥ (if rpt2 ≠ 0 ∨ (flush ∧ st2.pos = numvals) then 0x03 else 0x7f) then
          -- complete the literal run: header byte at rle_out, cursor advance
          -- is `nbits * (rle_run >> 1)` exactly as in lines 664-669
          { st2 with log := (st2.out, st2.run % 256) :: st2.log,
                     out := st2.out + nbits * (st2.run >>> 1),
                     run := 0 }
        else st2
      (st3, rpt2, needMore)
    else
      (st1, rpt1, false)
  let st4 := stB.1
  let rpt3 := stB.2.1
  if stB.2.2 then (st4, true)
  else
    -- block: process the repeat run (lines 677-702)
    if rpt3 ≠ 0 then
      let runVal' := if sharedLit < 128 then v sharedLit else st4.runVal
      let st5 := { st4 with runVal := runVal', run := rpt3 * 2, pos := st4.pos + rpt3 }
      if st5.pos + 1 = numvals then
        if flush then
          let st6 := { st5 with run := st5.run + 2, pos := st5.pos + 1 }
          ({ emitRepeat st6 st6.run st6.runVal nbits with run := 0 }, true)
        else
          (st5, true)
      else
        (st5, false)
    else
      (st4, false)

/-- The `while (rle_pos < numvals)` loop, fuel-bounded (each iteration
consumes input or breaks; the fuel is generous). -/
def rleEncodeGo (vals : Nat → Nat) (numvals nbits : Nat) (flush : Bool) :
    Nat → RleSt → RleSt
  | 0, st => st
  | fuel + 1, st =>
    if st.pos < numvals then
      match rleIter vals numvals nbits flush st with
      | (st', true) => st'
      | (st', false) => rleEncodeGo vals numvals nbits flush fuel st'
    else st

/-- `RleEncode(s, numvals, nbits, flush, t)`: run the loop, then persist
`rle_numvals` (lines 705-709). -/
def rleEncode (vals : Nat → Nat) (numvals nbits : Nat) (flush : Bool)
    (st : RleSt) : RleSt :=
  { rleEncodeGo vals numvals nbits flush (2 * numvals + 8) st with numvals := numvals }

/-! ## A standard hybrid RLE/bit-packing reader

Modelled from the spec: the decoder of "the standard hybrid
RLE/bit-packing format (varint run header; repeated-value run as
run-length with the value in 1 or 2 raw bytes; literal run as an odd
header with value count divisible by 8, values bit-packed at the given
width)"; it is not part of the source under `src/`, which only contains
the write side. -/

/-- Read one varint (continuation-bit) header; `none` on truncation. -/
def readVarintGo : Nat → List Nat → Option (Nat × List Nat)
  | 0, _ => none
  | _, [] => none
  | fuel + 1, b :: rest =>
    if b % 256 < 128 then some (b % 256, rest)
    else
      match readVarintGo fuel rest with
      | some (v, r) => some (b % 128 + 128 * v, r)
      | none => none

/-- Value `i` of a `w`-bit little-endian bit-packed byte sequence. -/
def bitsVal (w : Nat) (data : List Nat) (i : Nat) : Nat :=
  (List.range w).foldr
    (fun j acc => acc * 2 + data.getD ((i * w + j) / 8) 0 >>> ((i * w + j) % 8) % 2) 0

/-- Decode a hybrid RLE/bit-packed stream of `w`-bit values. -/
def rleDecodeGo (w : Nat) : Nat → List Nat → List Nat
  | 0, _ => []
  | fuel + 1, bytes =>
    match readVarintGo 6 bytes with
    | none => []
    | some (h, rest) =>
      if h = 0 then []
      else if h % 2 = 1 then
        let groups := h / 2
        let nbytes := groups * w
        let data := rest.take nbytes
        (List.range (groups * 8)).map (bitsVal w data) ++ rleDecodeGo w fuel (rest.drop nbytes)
      else
        let count := h / 2
        let val := if 8 < w then rest.getD 0 0 + 256 * rest.getD 1 0 else rest.getD 0 0
        List.replicate count val ++ rleDecodeGo w fuel (rest.drop (if 8 < w then 2 else 1))

/-- Decode and keep the first `n` values (a reader knows how many values
it expects; trailing literal padding is ignored). -/
def rleDecodeN (w n : Nat) (bytes : List Nat) : List Nat :=
  (rleDecodeGo w (bytes.length + 1) bytes).take n

/-! ## Concrete C1 input: 129 copies of 5 followed by one 7, 8-bit
symbols, presented to `RleEncode` in a single invocation with
`numvals = 130`, `flush = 1`. -/

/-- The C1 failing input sequence. -/
def c1Input : List Nat := List.replicate 129 5 ++ [7]

/-- The `s->vals` buffer holding the C1 input at positions 0..129. -/
def c1Vals : Nat → Nat := fun p => c1Input.getD (p % 512) 0

/-- The encoder state after the single C1 invocation. -/
def c1Final : RleSt := rleEncode c1Vals 130 8 true (rleInit 0)

/-! ## The page planner (`gpuInitPages`, lines 386-471)

One 32-lane warp walks the chunk's fragment list sequentially; all
decisions are taken by lane 0 and broadcast, so the loop is transcribed
as a sequential recursion over the fragment list.  Pointers into the
chunk's uncompressed/compressed buffers are modelled as `Nat` offsets.
The conservative compressor bound `GetMaxCompressedBfrSize` lives in the
missing header `parquet_gpu.h`; it is passed as an abstract function
argument `gmc`. -/

/-- `DATA_PAGE` page-type tag (standard parquet thrift value, enum in the
missing header). -/
def DATA_PAGE : Nat := 0

/-- `DICTIONARY_PAGE` page-type tag. -/
def DICTIONARY_PAGE : Nat := 2

/-- The per-fragment record fields read by the planner. -/
structure Frag where
  rows : Nat
  size : Nat
  deriving Repr, DecidableEq, Inhabited

/-- The `EncPage` record (fields of the struct written at lines 430-445
and updated by `gpuEncodePages`). -/
structure EncPageRec where
  numFragments : Nat
  chunkId : Nat
  pageType : Nat
  hdrSize : Nat
  maxHdrSize : Nat
  maxDataSize : Nat
  pageData : Nat
  compressedData : Nat
  startRow : Nat
  numRows : Nat
  deriving Repr, DecidableEq, Inhabited

/-- The chunk-level inputs `gpuInitPages` reads. -/
structure ChunkIn where
  startRow : Nat
  numRows : Nat
  chunkId : Nat
  levelBits : Nat
  uncompBase : Nat
  compBase : Nat
  deriving Repr, DecidableEq, Inhabited

/-- Chunk fields written back by `gpuInitPages` (lines 461-465). -/
structure ChunkPlanOut where
  numPages : Nat
  bfrSize : Nat
  compressedSize : Nat
  deriving Repr, DecidableEq, Inhabited

/-- The loop-local planner state (lines 404-412). -/
structure PPSt where
  fragmentsInChunk : Nat
  rowsInPage : Nat
  pageSize : Nat
  numPages : Nat
  numRows : Nat
  pageStart : Nat
  pageOffset : Nat
  compPageOffset : Nat
  curRow : Nat
  deriving Repr, DecidableEq, Inhabited

/-- The definition-level size estimate of lines 431-432:
`(def_level_bits) ? 4 + 5 + ((def_level_bits * rows_in_page + 7) >> 3) : 0`. -/
def defLevelSize (levelBits rowsInPage : Nat) : Nat :=
  let defBits := levelBits &&& 0xf
  if defBits ≠ 0 then 4 + 5 + ((defBits * rowsInPage + 7) >>> 3) else 0

/-- The page record emitted on a cut (lines 430-445). -/
def ppEmit (ck : ChunkIn) (st : PPSt) : EncPageRec :=
  { numFragments := st.fragmentsInChunk - st.pageStart
    chunkId := ck.chunkId
    pageType := DATA_PAGE
    hdrSize := 0
    maxHdrSize := 32
    maxDataSize := st.pageSize + defLevelSize ck.levelBits st.rowsInPage
    pageData := ck.uncompBase + st.pageOffset
    compressedData := ck.compBase + st.compPageOffset
    startRow := st.curRow
    numRows := st.rowsInPage }

/-- The state after emitting a page (lines 443-454). -/
def ppAfterEmit (gmc : Nat → Nat) (ck : ChunkIn) (st : PPSt) : PPSt :=
  let m := st.pageSize + defLevelSize ck.levelBits st.rowsInPage
  { st with
    pageOffset := st.pageOffset + 32 + m
    compPageOffset := st.compPageOffset + 32 + gmc m
    curRow := st.curRow + st.rowsInPage
    numPages := st.numPages + 1
    pageSize := 0
    rowsInPage := 0
    pageStart := st.fragmentsInChunk }

/-- Accumulating a fragment into the open page (lines 456-459). -/
def ppAccum (st : PPSt) (f : Frag) : PPSt :=
  { st with
    pageSize := st.pageSize + f.size
    rowsInPage := st.rowsInPage + f.rows
    numRows := st.numRows + f.rows
    fragmentsInChunk := st.fragmentsInChunk + 1 }

/-- The `do … while (frag_g.num_rows != 0)` loop of `gpuInitPages`.  When
`num_rows < ck.num_rows` the next real fragment is read, otherwise the
zero sentinel (lines 421-424) forces a final cut and the loop exits.  A
fragment with zero rows also exits the loop after being processed.
(Reading past the fragment list with `num_rows` still below the chunk's
row count is out of bounds in the source; that branch returns the pages
emitted so far.) -/
def ppGo (gmc : Nat → Nat) (ck : ChunkIn) :
    PPSt → List Frag → List EncPageRec × PPSt
  | st, [] =>
    if ck.numRows ≤ st.numRows then
      -- sentinel iteration: the cut condition holds, one page is emitted
      ([ppEmit ck st], ppAccum (ppAfterEmit gmc ck st) ⟨0, 0⟩)
    else ([], st)
  | st, f :: rest =>
    if ck.numRows ≤ st.numRows then
      ([ppEmit ck st], ppAccum (ppAfterEmit gmc ck st) ⟨0, 0⟩)
    else
      let cut := pageCut st.numRows ck.numRows st.pageSize f.size st.rowsInPage
      let st1 := if cut then ppAfterEmit gmc ck st else st
      let st2 := ppAccum st1 f
      if f.rows = 0 then
        (if cut then [ppEmit ck st] else [], st2)
      else
        let res := ppGo gmc ck st2 rest
        ((if cut then [ppEmit ck st] else []) ++ res.1, res.2)

/-- The initial planner state (`cur_row = ck_g.start_row`, line 412). -/
def ppInit (ck : ChunkIn) : PPSt :=
  { fragmentsInChunk := 0, rowsInPage := 0, pageSize := 0, numPages := 0
    numRows := 0, pageStart := 0, pageOffset := 0, compPageOffset := 0
    curRow := ck.startRow }

/-- `gpuInitPages` for one chunk: the emitted pages and the chunk
write-back (`num_pages`, `bfr_size`, `compressed_size`). -/
def initPagesChunk (gmc : Nat → Nat) (ck : ChunkIn) (fs : List Frag) :
    List EncPageRec × ChunkPlanOut :=
  let r := ppGo gmc ck (ppInit ck) fs
  (r.1, { numPages := r.2.numPages, bfrSize := r.2.pageOffset,
          compressedSize := r.2.compPageOffset })

/-- Row ranges of a page list chain from `s`: each page starts where the
previous one ended. -/
def chainedFrom : Nat → List EncPageRec → Bool
  | _, [] => true
  | s, p :: rest => decide (p.startRow = s) && chainedFrom (s + p.numRows) rest

/-- Total rows of a page list. -/
def pageRowSum (ps : List EncPageRec) : Nat := (ps.map EncPageRec.numRows).sum

/-- Total rows of a fragment list. -/
def fragRowSum (fs : List Frag) : Nat := (fs.map Frag.rows).sum

set_option maxRecDepth 10000 in
/-- C1: the RLE round-trip fails.  For the 8-bit input consisting of 129
copies of 5 followed by a single 7, presented to `RleEncode` in one
invocation with `flush` set, the encoder emits the byte stream
`[0x84, 0x02, 0x05]` — a repeated-value run of 130 copies of 5 — so a
standard reader recovers 130 fives instead of the original sequence: the
final value 7 is silently absorbed into the repeat run (the `rpt_count++`
of line 571 fires because `flush && rle_pos + rpt_count + 1 == numvals`,
although the value at that position differs from the run value). -/
theorem C1_roundtrip_violated :
    logBytes c1Final.log (logEnd c1Final.log) = [132, 2, 5] ∧
    rleDecodeN 8 130 (logBytes c1Final.log (logEnd c1Final.log)) =
      List.replicate 130 5 ∧
    rleDecodeN 8 130 (logBytes c1Final.log (logEnd c1Final.log)) ≠ c1Input := by
  refine ⟨by decide, by decide, by decide⟩

/-! ## The page data encoder (`gpuEncodePages`, lines 714-918)

One 128-lane block per page.  The lane ballots / warp prefix sums used
for validity compaction and output positioning compute, for lane `t`, the
count (resp. byte total) of the valid lanes below `t`; they are
transcribed as those counts.  All byte stores go to the shared write log,
with offsets relative to the start of the page's data region
(`page_data + max_hdr_size`). -/

/-- Physical storage types (enum in the missing header; only the members
used by `page_enc.cu` are modelled). -/
inductive PhysType
  | BOOLEAN | INT32 | INT64 | FLOAT | DOUBLE | BYTE_ARRAY
  deriving DecidableEq, Repr, Inhabited

/-- Converted (logical) types relevant to `dtype_len_in`. -/
inductive ConvType
  | INT_8 | INT_16 | OTHER
  deriving DecidableEq, Repr, Inhabited

/-- The column descriptor fields read by the encoder.  `columnData row`
is the raw little-endian bit pattern of the row's fixed-width value
(`% 2 ^ (8*len)` taken where read); `strLen`/`strData` model the
`nvstrdesc_s` length/bytes of a `BYTE_ARRAY` row; `validMap` gives the
validity bit of each row when a bitmap is present. -/
structure EncColDesc where
  physicalType : PhysType
  convertedType : ConvType
  levelBits : Nat
  numRows : Nat
  validMap : Option (Nat → Bool)
  columnData : Nat → Nat
  strLen : Nat → Nat
  strData : Nat → Nat → Nat
  dictIndexPresent : Bool

/-- `dtype_len` / `dtype_len_out` (lines 132, 779). -/
def dtypeLenOut (d : PhysType) : Nat :=
  match d with
  | .INT64 | .DOUBLE => 8
  | .BOOLEAN => 1
  | _ => 4

/-- `dtype_len_in` (lines 133-139, 780-786). -/
def dtypeLenIn (col : EncColDesc) : Nat :=
  match col.physicalType with
  | .INT32 =>
    match col.convertedType with
    | .INT_8 => 1
    | .INT_16 => 2
    | .OTHER => 4
  | .BYTE_ARRAY => 16
  | d => dtypeLenOut d

/-- `dict_bits = (dtype == BOOLEAN) ? 1 : 0` (line 787): the bit width of
the RLE-encoded value stream, zero when the plain path is taken. -/
def dictBitsOf (col : EncColDesc) : Nat :=
  if col.physicalType = PhysType.BOOLEAN then 1 else 0

/-- Whether the value stream of a page of this column is produced by
`RleEncode` (the `dict_bits != 0` branch at line 809) rather than written
in plain form. -/
def valueStreamUsesRle (col : EncColDesc) : Bool := decide (dictBitsOf col ≠ 0)

/-- Modelled from the spec (claim C6's words, not from the source): C6
calls a column "dictionary-eligible" when it carries a dictionary index
buffer. -/
def specDictEligible (col : EncColDesc) : Bool := col.dictIndexPresent

/-- `is_valid` / `def_lvl` for a row (lines 755, 804): rows at or past
the column's row count read 0, otherwise the bitmap bit, or 1 with no
bitmap. -/
def isValidRow (col : EncColDesc) (row : Nat) : Bool :=
  if row < col.numRows then
    match col.validMap with
    | some f => f row
    | none => true
  else false

/-- Overlay a 128-cell refill of the circular 512-entry value buffer:
cell `(base + t) % 512` takes `f t` for `t < 128` (line 756). -/
def bufWrite128 (vals : Nat → Nat) (base : Nat) (f : Nat → Nat) : Nat → Nat :=
  fun c =>
    let t := (c % 512 + 512 - base % 512) % 512
    if t < 128 then f t else vals c

/-- Number of valid lanes below lane `t` in a 128-lane batch: the value
the two-level popcount/prefix dance of lines 813-822 computes for lane
`t`. -/
def laneRank (isv : Nat → Bool) (t : Nat) : Nat := (List.range t).countP isv

/-- Valid-lane count of the whole batch (`s->scratch_red[3]`). -/
def laneCount (isv : Nat → Bool) : Nat := (List.range 128).countP isv

/-- The compacting buffer stores of the dictionary/RLE value path (lines
825-827): each valid lane writes its value to the slot
`(base + rank) % 512`, where `base` is the value of the kernel's local
`rle_numvals` — which line 823 sets to the post-batch count
`s->rle_numvals + s->scratch_red[3]`, one batch-total ahead of the
window the subsequent `RleEncode` call consumes. -/
def dictCompactWrites (base : Nat) (isv : Nat → Bool) (value : Nat → Nat) :
    List (Nat × Nat) :=
  ((List.range 128).filter isv).map
    (fun t => ((base + laneRank isv t) % 512, value t))

/-- Apply a list of (cell, value) writes to a buffer (cells are written
by distinct lanes). -/
def bufApply (vals : Nat → Nat) (ws : List (Nat × Nat)) : Nat → Nat :=
  fun c =>
    match ws.find? (fun pb => pb.1 = c) with
    | some pb => pb.2
    | none => vals c

/-- Sum of the output byte lengths of lanes below `t` (the exclusive
prefix computed at lines 844-856). -/
def laneByteOfs (len : Nat → Nat) (t : Nat) : Nat := ((List.range t).map len).sum

/-- Total output bytes of a 128-lane batch. -/
def laneByteSum (len : Nat → Nat) : Nat := ((List.range 128).map len).sum

/-- Sign-extend the low `8*w` bits of `raw` to a 32-bit two's-complement
pattern (the `int8_t`/`int16_t`/`int32_t` loads of lines 862-868). -/
def sext32 (w raw : Nat) : Nat :=
  let m := raw % 2 ^ (8 * w)
  if 2 ^ (8 * w - 1) ≤ m ∧ w < 4 then m + (2 ^ 32 - 2 ^ (8 * w)) else m

/-- The plain-path byte stores of one valid lane (lines 857-890), at
offset `pos` in the data region. -/
def plainWrites (col : EncColDesc) (row pos : Nat) : List (Nat × Nat) :=
  match col.physicalType with
  | .INT32 | .FLOAT =>
    let v := sext32 (dtypeLenIn col) (col.columnData row)
    [(pos, v % 256), (pos + 1, v >>> 8 % 256), (pos + 2, v >>> 16 % 256),
     (pos + 3, v >>> 24 % 256)]
  | .INT64 | .DOUBLE =>
    (List.range 8).map (fun i => (pos + i, col.columnData row >>> (8 * i) % 256))
  | .BYTE_ARRAY =>
    let v := col.strLen row
    [(pos, v % 256), (pos + 1, v >>> 8 % 256), (pos + 2, v >>> 16 % 256),
     (pos + 3, v >>> 24 % 256)] ++
      (List.range v).map (fun i => (pos + 4 + i, col.strData row i % 256))
  | .BOOLEAN => []

/-- The encoder state threaded through `gpuEncodePages`: the output
cursor `s->cur` (data-region relative), the RLE sub-state (whose log is
the shared page write log), and the value buffer `s->vals`. -/
structure EncSt where
  cur : Nat
  rle : RleSt
  vals : Nat → Nat

/-- One iteration of the definition-level loop (lines 751-760).  Exactly
128 lanes write the buffer while `nrows` (up to 512) values are declared
consumed, exactly as in the source. -/
def defLvlStep (col : EncColDesc) (page : EncPageRec) (st : EncSt) : EncSt :=
  let rleNumvals := st.rle.numvals
  let nrows := min (page.numRows - rleNumvals) (512 - (rleNumvals - st.rle.pos))
  let vals' := bufWrite128 st.vals rleNumvals
    (fun t => if isValidRow col (page.startRow + rleNumvals + t) then 1 else 0)
  let rle' := rleEncode vals' (rleNumvals + nrows) (col.levelBits &&& 0xf)
    (decide (rleNumvals + nrows = page.numRows)) st.rle
  { cur := st.cur, rle := rle', vals := vals' }

/-- The `while (s->rle_numvals < s->page.num_rows)` loop. -/
def defLvlLoop (col : EncColDesc) (page : EncPageRec) : Nat → EncSt → EncSt
  | 0, st => st
  | fuel + 1, st =>
    if st.rle.numvals < page.numRows then
      defLvlLoop col page fuel (defLvlStep col page st)
    else st

/-- The definition-level phase (lines 740-774): run the validity bits
through the RLE encoder behind a 4-byte length slot, then record the
length and move `s->cur` to the RLE cursor. -/
def defLvlPhase (col : EncColDesc) (page : EncPageRec) (st : EncSt) : EncSt :=
  if page.pageType ≠ DICTIONARY_PAGE ∧ col.levelBits ≠ 0 ∧ col.levelBits &&& 0xf ≠ 0 then
    let st0 := { st with rle := { st.rle with run := 0, pos := 0, numvals := 0,
                                              out := st.cur + 4 } }
    let st1 := defLvlLoop col page (page.numRows + 1) st0
    let rleBytes := st1.rle.out - st.cur
    let log' := (List.range 4).foldl
      (fun lg t => (st.cur + t, rleBytes >>> (t * 8) % 256) :: lg) st1.rle.log
    { st1 with cur := st1.rle.out, rle := { st1.rle with log := log' } }
  else st

/-- One 128-row batch of the value loop (lines 800-893). -/
def valueBatch (col : EncColDesc) (page : EncPageRec) (curRow : Nat)
    (st : EncSt) : EncSt :=
  let nrows := min (page.numRows - curRow) 128
  let row : Nat → Nat := fun t => page.startRow + curRow + t
  let isv : Nat → Bool := fun t => isValidRow col (row t)
  if dictBitsOf col ≠ 0 then
    -- dictionary/RLE path: each valid lane stores its raw byte at rank
    -- offset from the local `rle_numvals` of line 823, which is the
    -- POST-batch count `s->rle_numvals + s->scratch_red[3]`; the RLE
    -- encoder is then run up to that same post-batch count, so it
    -- consumes the window just below the cells this batch wrote
    let ws := dictCompactWrites (st.rle.numvals + laneCount isv) isv
      (fun t => col.columnData (row t) % 256)
    let vals' := bufApply st.vals ws
    let rle' := rleEncode vals' (st.rle.numvals + laneCount isv) (dictBitsOf col)
      (decide (curRow + nrows = page.numRows)) st.rle
    { st with rle := rle', vals := vals' }
  else
    -- plain path: fixed-width / length-prefixed stores at prefix-summed
    -- offsets from s->cur
    let len : Nat → Nat := fun t =>
      if isv t then
        dtypeLenOut col.physicalType +
          (if col.physicalType = PhysType.BYTE_ARRAY then col.strLen (row t) else 0)
      else 0
    let ws := (List.range 128).foldr
      (fun t acc =>
        if isv t then plainWrites col (row t) (st.cur + laneByteOfs len t) ++ acc
        else acc) []
    { st with cur := st.cur + laneByteSum len,
              rle := { st.rle with log := ws.reverse ++ st.rle.log } }

/-- The `for (cur_row = 0; cur_row < num_rows; cur_row += nrows)` loop. -/
def valueLoopGo (col : EncColDesc) (page : EncPageRec) : Nat → Nat → EncSt → EncSt
  | 0, _, st => st
  | fuel + 1, curRow, st =>
    if curRow < page.numRows then
      let nrows := min (page.numRows - curRow) 128
      valueLoopGo col page fuel (curRow + nrows) (valueBatch col page curRow st)
    else st

/-- The value phase: cursor/RLE initialisation of lines 788-798 followed
by the batch loop. -/
def valuePhase (col : EncColDesc) (page : EncPageRec) (st : EncSt) : EncSt :=
  let dst := st.cur
  let st0 :=
    if dictBitsOf col ≠ 0 ∧ col.physicalType ≠ PhysType.BOOLEAN then
      { st with rle := { st.rle with run := 0, pos := 0, numvals := 0, out := dst + 1,
                                     log := (dst, dictBitsOf col) :: st.rle.log } }
    else
      { st with rle := { st.rle with run := 0, pos := 0, numvals := 0, out := dst } }
  valueLoopGo col page (page.numRows + 1) 0 st0

/-- The result of `gpuEncodePages` for one page: the written-back page
record, the data-region write log, the recorded actual size
(`s->cur - base`, line 897) and the compressor-job source size. -/
structure EncodeResult where
  page : EncPageRec
  log : List (Nat × Nat)
  actualDataSize : Nat
  compSrcSize : Nat
  compStatusInit : Nat

/-- `gpuEncodePages` for one page (definition levels, then values, then
the write-back of lines 895-911, which replaces `max_data_size` with the
recorded actual size). -/
def gpuEncodePagesModel (col : EncColDesc) (page : EncPageRec) : EncodeResult :=
  let st0 : EncSt := { cur := 0, rle := rleInit 0, vals := fun _ => 0 }
  let st1 := defLvlPhase col page st0
  let st2 := valuePhase col page st1
  { page := { page with maxDataSize := st2.cur }
    log := st2.rle.log
    actualDataSize := st2.cur
    compSrcSize := st2.cur
    compStatusInit := 2 ^ 32 - 1 }

/-! ## The compression decision (`gpuDecideCompression`, lines 922-967)

Lane 0's private sums decide: it iterates `page = 0 … num_pages-1` and
reads `pages[first_page + page].max_data_size` but, for the compressor
results, `comp_out[page]` — the status array is indexed from 0, not from
the chunk's first page. -/

/-- A compressor status record (`gpu_inflate_status_s`). -/
structure CompStat where
  bytesWritten : Nat
  status : Nat
  deriving Repr, DecidableEq, Inhabited

/-- Chunk fields written back by `gpuDecideCompression` (lines 962-964). -/
structure DecideOut where
  isCompressed : Bool
  bfrSize : Nat
  compressedSize : Nat
  deriving Repr, DecidableEq, Inhabited

/-- `gpuDecideCompression` for one chunk.  `pageDataSize i` is
`pages[i].max_data_size` (global page index, as rewritten by the encode
pass); `compOut` is the status array, or `none` when no compressor ran. -/
def gpuDecideCompression (firstPage numPages : Nat) (pageDataSize : Nat → Nat)
    (compOut : Option (Nat → CompStat)) : DecideOut :=
  let uncompressed := ((List.range numPages).map
    (fun i => pageDataSize (firstPage + i))).sum
  let compressed :=
    match compOut with
    | some co => ((List.range numPages).map (fun i => (co i).bytesWritten)).sum
    | none => 0
  let anyError :=
    match compOut with
    | some co => (List.range numPages).any (fun i => decide ((co i).status ≠ 0))
    | none => false
  let isCompressed :=
    match compOut with
    | some _ => !anyError && decide (compressed < uncompressed)
    | none => false
  { isCompressed := isCompressed
    bfrSize := uncompressed
    compressedSize := if isCompressed then compressed else uncompressed }

/-- Modelled from the spec (claim C5's words, not from the source): the
decision the claim describes, reading each page's own compressor entry
(`first_page + i`). -/
def specDecideCompression (firstPage numPages : Nat) (pageDataSize : Nat → Nat)
    (compOut : Option (Nat → CompStat)) : DecideOut :=
  let uncompressed := ((List.range numPages).map
    (fun i => pageDataSize (firstPage + i))).sum
  let compressed :=
    match compOut with
    | some co => ((List.range numPages).map (fun i => (co (firstPage + i)).bytesWritten)).sum
    | none => 0
  let anyError :=
    match compOut with
    | some co => (List.range numPages).any (fun i => decide ((co (firstPage + i)).status ≠ 0))
    | none => false
  let isCompressed :=
    match compOut with
    | some _ => !anyError && decide (compressed < uncompressed)
    | none => false
  { isCompressed := isCompressed
    bfrSize := uncompressed
    compressedSize := if isCompressed then compressed else uncompressed }

/-! ## Concrete inputs for C5, C6 and C8 -/

/-- C5 failing input: the second chunk of a two-chunk launch, owning only
global page 1.  Its own page compressed to 5 of 10 bytes with status 0;
global page 0 (the other chunk's) failed with status 1. -/
def c5CompOut : Nat → CompStat := fun i =>
  if i = 0 then ⟨5, 1⟩ else ⟨5, 0⟩

/-- Page data sizes for the C5 input (10 bytes each). -/
def c5PageSize : Nat → Nat := fun _ => 10

/-- A non-nullable (`level_bits = 0`) BOOLEAN column with a single row,
used by C8. -/
def c8Col : EncColDesc :=
  { physicalType := PhysType.BOOLEAN
    convertedType := ConvType.OTHER
    levelBits := 0
    numRows := 1
    validMap := none
    columnData := fun _ => 1
    strLen := fun _ => 0
    strData := fun _ _ => 0
    dictIndexPresent := false }

/-- The chunk holding that column: one row, one fragment of one row and
one data byte. -/
def c8Ck : ChunkIn :=
  { startRow := 0, numRows := 1, chunkId := 0, levelBits := 0,
    uncompBase := 0, compBase := 0 }

/-- The single page planned by `gpuInitPages` for the C8 chunk. -/
def c8Page : EncPageRec := ((initPagesChunk id c8Ck [⟨1, 1⟩]).1).getD 0 default

/-- An INT32 column that carries a dictionary index buffer, used by the
C6 counterexample. -/
def c6Col : EncColDesc :=
  { physicalType := PhysType.INT32
    convertedType := ConvType.OTHER
    levelBits := 1
    numRows := 100
    validMap := none
    columnData := fun _ => 0
    strLen := fun _ => 0
    strData := fun _ _ => 0
    dictIndexPresent := true }

/-- A fresh encoder state (cursor 0, reset RLE state, zeroed value
buffer), used to exercise the amended C6 value-batch characterisation on
a concrete BOOLEAN column. -/
def c6St : EncSt := { cur := 0, rle := rleInit 0, vals := fun _ => 0 }

theorem ppGo_chain (gmc : Nat → Nat) (ck : ChunkIn) :
    ∀ (fs : List Frag) (st : PPSt),
      (∀ f ∈ fs, 0 < f.rows) →
      st.numRows + fragRowSum fs = ck.numRows →
      st.curRow + st.rowsInPage = ck.startRow + st.numRows →
      chainedFrom st.curRow (ppGo gmc ck st fs).1 = true ∧
        pageRowSum (ppGo gmc ck st fs).1 = st.rowsInPage + fragRowSum fs := by
  intro fs
  induction fs with
  | nil =>
    intro st _ hsum hcur
    have hend : ck.numRows ≤ st.numRows := by
      simp only [fragRowSum, List.map_nil, List.sum_nil] at hsum
      omega
    simp only [ppGo, if_pos hend, chainedFrom, ppEmit, pageRowSum, fragRowSum,
      List.map_nil, List.sum_nil, List.map_cons, List.sum_cons, decide_eq_true_eq]
    simp
  | cons f rest ih =>
    intro st hpos hsum hcur
    have hf : 0 < f.rows := hpos f (List.mem_cons_self f rest)
    have hlt : ¬ ck.numRows ≤ st.numRows := by
      simp only [fragRowSum, List.map_cons, List.sum_cons] at hsum
      omega
    rw [ppGo, if_neg hlt]
    have hrest : ∀ g ∈ rest, 0 < g.rows := fun g hg => hpos g (List.mem_cons_of_mem f hg)
    by_cases hcut : pageCut st.numRows ck.numRows st.pageSize f.size st.rowsInPage = true
    · simp only [hcut, if_true, if_neg (by omega : ¬ f.rows = 0), List.singleton_append]
      set st2 := ppAccum (ppAfterEmit gmc ck st) f with hst2
      have h2 : st2.numRows + fragRowSum rest = ck.numRows := by
        simp only [hst2, ppAccum, ppAfterEmit, fragRowSum, List.map_cons, List.sum_cons] at hsum ⊢
        omega
      have h3 : st2.curRow + st2.rowsInPage = ck.startRow + st2.numRows := by
        simp only [hst2, ppAccum, ppAfterEmit]
        omega
      obtain ⟨ihc, ihs⟩ := ih st2 hrest h2 h3
      constructor
      · rw [chainedFrom]
        have he : (ppEmit ck st).startRow = st.curRow := rfl
        have hn : (ppEmit ck st).numRows = st.rowsInPage := rfl
        have hc2 : st.curRow + st.rowsInPage = st2.curRow := by
          simp only [hst2, ppAccum, ppAfterEmit]
        rw [he, hn, hc2, ihc]
        simp
      · rw [pageRowSum, List.map_cons, List.sum_cons]
        have hn : (ppEmit ck st).numRows = st.rowsInPage := rfl
        have h4 : st2.rowsInPage = f.rows := by
          simp only [hst2, ppAccum, ppAfterEmit]
          omega
        rw [hn]
        have hs := ihs
        rw [pageRowSum] at hs
        rw [hs, h4]
        simp only [fragRowSum, List.map_cons, List.sum_cons]
    · simp only [Bool.not_eq_true] at hcut
      simp only [hcut, Bool.false_eq_true, if_false, if_neg (by omega : ¬ f.rows = 0),
        List.nil_append]
      set st2 := ppAccum st f with hst2
      have h2 : st2.numRows + fragRowSum rest = ck.numRows := by
        simp only [hst2, ppAccum, fragRowSum, List.map_cons, List.sum_cons] at hsum ⊢
        omega
      have h3 : st2.curRow + st2.rowsInPage = ck.startRow + st2.numRows := by
        simp only [hst2, ppAccum]
        omega
      obtain ⟨ihc, ihs⟩ := ih st2 hrest h2 h3
      constructor
      · have hc2 : st.curRow = st2.curRow := by simp only [hst2, ppAccum]
        rw [hc2]
        exact ihc
      · have h4 : st2.rowsInPage = st.rowsInPage + f.rows := by
          simp only [hst2, ppAccum]
        rw [ihs, h4]
        simp only [fragRowSum, List.map_cons, List.sum_cons]
        omega

/-- C7: for every chunk whose fragment list partitions its rows (all
fragments non-empty, rows summing to the chunk's row count), the pages
emitted by `gpuInitPages` have chained row ranges — the first page starts
at the chunk's `start_row` and each page starts where the previous one
ended — and their row counts sum to the chunk's row count. -/
theorem C7_pages_partition_chunk (gmc : Nat → Nat) (ck : ChunkIn) (fs : List Frag)
    (hpos : ∀ f ∈ fs, 0 < f.rows) (hsum : fragRowSum fs = ck.numRows) :
    chainedFrom ck.startRow (initPagesChunk gmc ck fs).1 = true ∧
      pageRowSum (initPagesChunk gmc ck fs).1 = ck.numRows := by
  obtain ⟨h1, h2⟩ := ppGo_chain gmc ck fs (ppInit ck) hpos
    (by simp only [ppInit]; omega) (by simp only [ppInit])
  constructor
  · simpa only [initPagesChunk, ppInit] using h1
  · have h3 := h2
    simp only [ppInit] at h3
    simpa only [initPagesChunk, ppInit, Nat.zero_add, hsum] using h3

theorem C7_witness :
    chainedFrom 7 (initPagesChunk id ⟨7, 3, 0, 1, 0, 0⟩ [⟨2, 4⟩, ⟨1, 5⟩]).1 = true ∧
      pageRowSum (initPagesChunk id ⟨7, 3, 0, 1, 0, 0⟩ [⟨2, 4⟩, ⟨1, 5⟩]).1 = 3 :=
  C7_pages_partition_chunk id ⟨7, 3, 0, 1, 0, 0⟩ [⟨2, 4⟩, ⟨1, 5⟩]
    (by decide) (by decide)

/-! ## Fragment statistics and dictionary construction
(`gpuInitPageFragments`, lines 100-383), for an INT32 column
(`dtype_len_in = 4`)

The kernel runs 512 threads per fragment.  Phases, serialised:

1. per 512-row pass: validity, byte sizes, 12-bit hashes; each valid row
   stores `((local_row) << 12) | hash` into the scratch `dict_index` at
   its valid-rank position, and bumps the packed per-bucket counter;
2. the packed Hillis–Steele scan (lines 207-237) turns the 16-bit bucket
   counters into exclusive prefix sums (exact while the non-null count
   fits in 16 bits);
3. per 512-entry batches, every entry atomically claims a slot of its
   bucket (lines 243-277).  The order in which concurrent `atomicAdd`
   claims of one batch land is not determined by the program; it is
   passed as an explicit parameter (one claim order per batch, a
   permutation of the batch).  The canonical serialisation uses the
   batch itself (thread order).  The collision resolution (atomic-min on
   the bucket's first batch slot plus the verification re-read) follows;
4. every entry is compared against its bucket's first entry; duplicates
   are tagged in `dict_index`, unique entries compacted into `dict_data`
   (lines 279-377).
-/

/-- `uint32_init_hash` (lines 79-82): `(v + (v >> 16)) & 0xfff` in
`uint32_t` arithmetic (the wrap at `2 ^ 32` does not reach the low 12
bits). -/
def hash32 (v : Nat) : Nat := (v % 2 ^ 32 + v % 2 ^ 32 / 2 ^ 16) % 2 ^ 12

/-- The hash bucket of a scratch dictionary entry
`(local_row << 12) | hash`. -/
def bucketOf (e : Nat) : Nat := e % 2 ^ 12

/-- Number of entries of `l` falling in bucket `h`. -/
def cntB (l : List Nat) (h : Nat) : Nat := l.countP (fun e => decide (bucketOf e = h))

/-- Exclusive prefix sum of bucket counts: the value the packed scan of
lines 207-237 leaves in `map.u16[h]`. -/
def bucketStart (l : List Nat) (h : Nat) : Nat := ((List.range h).map (cntB l)).sum

/-- The serialised `atomicAdd` slot claims of one batch (lines 255-257),
in the given claim order: each entry receives its bucket's next slot;
returns the advanced counters and the `(slot, entry)` stores into
`s->dict`. -/
def claimsGo : (Nat → Nat) → List Nat → (Nat → Nat) × List (Nat × Nat)
  | ctr, [] => (ctr, [])
  | ctr, e :: rest =>
    let p := ctr (bucketOf e)
    let r := claimsGo (Function.update ctr (bucketOf e) (p + 1)) rest
    (r.1, (p, e) :: r.2)

/-- The entries of a batch that see a collision (line 263):
`pos != pos_old && pos_new > pos_old + 1`, with `pos_old` the
pre-batch counter and `pos_new` the post-batch counter of the entry's
bucket. -/
def battColliders (ctr : Nat → Nat) (o : List Nat) : List (Nat × Nat) :=
  (claimsGo ctr o).2.filter (fun pe =>
    decide (pe.1 ≠ ctr (bucketOf pe.2)) &&
      decide (ctr (bucketOf pe.2) + 1 < (claimsGo ctr o).1 (bucketOf pe.2)))

/-- The dictionary contents after the batch's claims land (line 257). -/
def battDict1 (ctr dict : Nat → Nat) (o : List Nat) : Nat → Nat :=
  bufApply dict (claimsGo ctr o).2

/-- …after the colliders' `atomicMin` on their bucket's first batch slot
(line 270). -/
def battDict2 (ctr dict : Nat → Nat) (o : List Nat) : Nat → Nat :=
  (battColliders ctr o).foldl
    (fun d pe =>
      Function.update d (ctr (bucketOf pe.2)) (min (d (ctr (bucketOf pe.2))) pe.2))
    (battDict1 ctr dict o)

/-- One 512-entry batch of the slot-claim loop with its collision
resolution (lines 243-277): the claims, the `pos_old`/`pos_new`
collision test, the `atomicMin` on the bucket's first batch slot, and the
verification re-read (line 274) that swaps the displaced first claimer
(`colliding_row`, read from the post-claim dictionary) into the minimum
holder's slot. -/
def insertBatch (ctr dict : Nat → Nat) (order : List Nat) :
    (Nat → Nat) × (Nat → Nat) :=
  ((claimsGo ctr order).1,
    (battColliders ctr order).foldl
      (fun d pe =>
        if pe.2 = battDict2 ctr dict order (ctr (bucketOf pe.2)) then
          Function.update d pe.1 (battDict1 ctr dict order (ctr (bucketOf pe.2)))
        else d)
      (battDict2 ctr dict order))

/-- The batched slot-claim loop over all entries. -/
def insertPhase : (Nat → Nat) → (Nat → Nat) → List (List Nat) → (Nat → Nat) × (Nat → Nat)
  | ctr, dict, [] => (ctr, dict)
  | ctr, dict, b :: rest =>
    insertPhase (insertBatch ctr dict b).1 (insertBatch ctr dict b).2 rest

/-- Split a list into consecutive 512-element batches. -/
def chunksGo : Nat → List Nat → List (List Nat)
  | 0, _ => []
  | fuel + 1, l => if l = [] then [] else l.take 512 :: chunksGo fuel (l.drop 512)

/-- The 512-entry batches of the slot-claim loop (`for i in 0..nnz step
512`). -/
def chunks512 (l : List Nat) : List (List Nat) := chunksGo l.length l

/-- Smallest element of a list (with a sentinel above every dictionary
entry for the empty list). -/
def listMin (l : List Nat) : Nat := l.foldr min (2 ^ 62)

/-- The bucket-`h` entries of the first batch that has any: the entries
whose minimum the collision resolution installs in the bucket's first
slot. -/
def firstTouch : List (List Nat) → Nat → List Nat
  | [], _ => []
  | b :: rest, h =>
    let f := b.filter (fun e => decide (bucketOf e = h))
    if f = [] then firstTouch rest h else f

/-- State of the duplicate-detection pass (lines 279-362). -/
structure DupeSt where
  dupes : Nat
  dupeDataSize : Nat
  idxWrites : List (Nat × Nat)
  dataWrites : List (Nat × Nat)
  deriving Repr, DecidableEq, Inhabited

/-- One position of the duplicate scan: compare entry `j` with its
bucket's first entry (at `map.u16[hash-1]`, the bucket's start, since the
counters now hold start+count); a duplicate row gets
`dict_index[ck_row] = ck_row_ref | (1 << 31)` at its own row position, a
unique row is compacted into `dict_data` (lines 282-361). -/
def dupeStep (startRow : Nat) (values : Nat → Nat) (dict ctrFinal : Nat → Nat)
    (st : DupeSt) (j : Nat) : DupeSt :=
  let dv := dict j
  let h := bucketOf dv
  let ckLocal := dv / 2 ^ 12
  let refVal := dict (if 0 < h then ctrFinal (h - 1) else 0)
  let refLocal := refVal / 2 ^ 12
  if ckLocal ≠ refLocal ∧ values ckLocal % 2 ^ 32 = values refLocal % 2 ^ 32 then
    { st with dupes := st.dupes + 1, dupeDataSize := st.dupeDataSize + 4,
              idxWrites := st.idxWrites ++
                [(startRow + ckLocal, (startRow + refLocal) ||| 2 ^ 31)] }
  else
    { st with dataWrites := st.dataWrites ++ [(startRow + j - st.dupes, ckLocal)] }

/-- The duplicate scan over all `nnz` dictionary slots (its per-batch
ballot/scan bookkeeping computes the running duplicate count, serialised
here as a fold). -/
def dupePhase (startRow nnz : Nat) (values : Nat → Nat) (dict ctrFinal : Nat → Nat) :
    DupeSt :=
  (List.range nnz).foldl (dupeStep startRow values dict ctrFinal)
    { dupes := 0, dupeDataSize := 0, idxWrites := [], dataWrites := [] }

/-- The fragment outputs: statistics (lines 374-376) and the dictionary
index / dictionary data stores. -/
structure FragOut where
  nonNulls : Nat
  fragDataSize : Nat
  numDictVals : Nat
  dictDataSize : Nat
  totalDupes : Nat
  dictIndexWrites : List (Nat × Nat)
  dictDataWrites : List (Nat × Nat)
  deriving Repr, DecidableEq, Inhabited

/-- `gpuInitPageFragments` for one fragment of an INT32 column with a
dictionary index buffer: `valid i` / `values i` give validity and value
of fragment-local row `i`; atomic claim orders are the canonical
(thread-order) ones. -/
def fragInit (startRow nrows : Nat) (valid : Nat → Bool) (values : Nat → Nat) :
    FragOut :=
  let validRows := (List.range nrows).filter valid
  let nonNulls := validRows.length
  let fragDataSize := 4 * nonNulls
  let entries := validRows.map (fun i => i * 2 ^ 12 + hash32 (values i))
  let ip := insertPhase (bucketStart entries) (fun _ => 0) (chunks512 entries)
  let dp := dupePhase startRow nonNulls values ip.2 ip.1
  { nonNulls := nonNulls
    fragDataSize := fragDataSize
    numDictVals := nonNulls - dp.dupes
    dictDataSize := fragDataSize - dp.dupeDataSize
    totalDupes := dp.dupes
    dictIndexWrites := dp.idxWrites
    dictDataWrites := dp.dataWrites }

theorem cntB_nil (h : Nat) : cntB [] h = 0 := rfl

theorem cntB_cons (e : Nat) (l : List Nat) (h : Nat) :
    cntB (e :: l) h = (if bucketOf e = h then 1 else 0) + cntB l h := by
  simp only [cntB, List.countP_cons]
  by_cases hb : bucketOf e = h
  · simp [hb]
    omega
  · simp [hb]

theorem cntB_eq_filter_length (l : List Nat) (h : Nat) :
    cntB l h = (l.filter (fun e => decide (bucketOf e = h))).length := by
  simp [cntB, List.countP_eq_length_filter]

theorem claimsGo_ctr (o : List Nat) : ∀ (ctr : Nat → Nat) (g : Nat),
    (claimsGo ctr o).1 g = ctr g + cntB o g := by
  induction o with
  | nil => intro ctr g; simp [claimsGo, cntB]
  | cons e rest ih =>
    intro ctr g
    simp only [claimsGo]
    rw [ih, cntB_cons]
    rw [Function.update_apply]
    by_cases hg : g = bucketOf e
    · rw [if_pos hg, hg]
      simp
      omega
    · rw [if_neg hg, if_neg (fun hh => hg hh.symm)]
      omega

theorem claimsGo_slice (o : List Nat) : ∀ (ctr : Nat → Nat) (h : Nat),
    (claimsGo ctr o).2.filter (fun pe => decide (bucketOf pe.2 = h)) =
      (List.range' (ctr h) (cntB o h)).zip
        (o.filter (fun e => decide (bucketOf e = h))) := by
  induction o with
  | nil => intro ctr h; simp [claimsGo, cntB]
  | cons e rest ih =>
    intro ctr h
    simp only [claimsGo, List.filter_cons]
    by_cases hb : bucketOf e = h
    · rw [if_pos (by simpa using hb)]
      rw [ih]
      have hctr : Function.update ctr (bucketOf e) (ctr (bucketOf e) + 1) h =
          ctr h + 1 := by
        rw [hb]
        rw [Function.update_same]
      rw [hctr, cntB_cons, if_pos hb, hb]
      rw [if_pos (by simp)]
      rw [Nat.add_comm 1 (cntB rest h), List.range'_succ, List.zip_cons_cons]
    · rw [if_neg (by simpa using hb)]
      rw [ih]
      have hctr : Function.update ctr (bucketOf e) (ctr (bucketOf e) + 1) h =
          ctr h := Function.update_noteq (fun hh => hb hh.symm) _ ctr
      rw [hctr, cntB_cons, if_neg hb]
      rw [if_neg (by simpa using hb)]
      rw [Nat.zero_add]

theorem bufApply_eq_of_mem (dict : Nat → Nat) (p v : Nat) :
    ∀ (ws : List (Nat × Nat)), (p, v) ∈ ws →
      (∀ q ∈ ws, q.1 = p → q.2 = v) → bufApply dict ws p = v := by
  intro ws
  induction ws with
  | nil => intro hmem; cases hmem
  | cons a rest ih =>
    intro hmem huniq
    unfold bufApply
    by_cases ha : a.1 = p
    · rw [List.find?_cons_of_pos _ (by simpa using ha)]
      exact huniq a (List.mem_cons_self a rest) ha
    · rw [List.find?_cons_of_neg _ (by simpa using ha)]
      have hmem' : (p, v) ∈ rest := by
        rcases List.mem_cons.mp hmem with he | hr
        · exact absurd (congrArg Prod.fst he.symm) ha
        · exact hr
      have := ih hmem' (fun q hq => huniq q (List.mem_cons_of_mem a hq))
      unfold bufApply at this
      exact this

theorem bufApply_eq_of_notMem (dict : Nat → Nat) (p : Nat) :
    ∀ (ws : List (Nat × Nat)), (∀ q ∈ ws, q.1 ≠ p) → bufApply dict ws p = dict p := by
  intro ws
  induction ws with
  | nil => intro _; rfl
  | cons a rest ih =>
    intro hno
    unfold bufApply
    rw [List.find?_cons_of_neg _ (by simpa using hno a (List.mem_cons_self a rest))]
    have := ih (fun q hq => hno q (List.mem_cons_of_mem a hq))
    unfold bufApply at this
    exact this

theorem dict2_fold_apply (ctr : Nat → Nat) :
    ∀ (cs : List (Nat × Nat)) (d0 : Nat → Nat) (p : Nat),
      (cs.foldl (fun d pe =>
          Function.update d (ctr (bucketOf pe.2))
            (min (d (ctr (bucketOf pe.2))) pe.2)) d0) p =
        ((cs.filter (fun pe => decide (ctr (bucketOf pe.2) = p))).map Prod.snd).foldl
          min (d0 p) := by
  intro cs
  induction cs with
  | nil => intro d0 p; rfl
  | cons pe rest ih =>
    intro d0 p
    rw [List.foldl_cons, List.filter_cons]
    by_cases hk : ctr (bucketOf pe.2) = p
    · rw [if_pos (by simpa using hk)]
      rw [List.map_cons, List.foldl_cons, ih]
      rw [hk, Function.update_same]
    · rw [if_neg (by simpa using hk)]
      rw [ih]
      rw [Function.update_noteq (fun hh => hk hh.symm)]

theorem dict3_fold_frame (ctr dict1 dict2 : Nat → Nat) :
    ∀ (cs : List (Nat × Nat)) (d0 : Nat → Nat) (p : Nat),
      (∀ pe ∈ cs, pe.1 ≠ p) →
      (cs.foldl (fun d pe =>
          if pe.2 = dict2 (ctr (bucketOf pe.2)) then
            Function.update d pe.1 (dict1 (ctr (bucketOf pe.2)))
          else d) d0) p = d0 p := by
  intro cs
  induction cs with
  | nil => intro d0 p _; rfl
  | cons pe rest ih =>
    intro d0 p hno
    rw [List.foldl_cons]
    rw [ih _ p (fun q hq => hno q (List.mem_cons_of_mem pe hq))]
    by_cases hc : pe.2 = dict2 (ctr (bucketOf pe.2))
    · rw [if_pos hc]
      exact Function.update_noteq (fun hh => (hno pe (List.mem_cons_self pe rest)) hh.symm) _ d0
    · rw [if_neg hc]

theorem dict3_fold_noswap (ctr dict1 dict2 : Nat → Nat) :
    ∀ (cs : List (Nat × Nat)) (d0 : Nat → Nat),
      (∀ pe ∈ cs, pe.2 ≠ dict2 (ctr (bucketOf pe.2))) →
      (cs.foldl (fun d pe =>
          if pe.2 = dict2 (ctr (bucketOf pe.2)) then
            Function.update d pe.1 (dict1 (ctr (bucketOf pe.2)))
          else d) d0) = d0 := by
  intro cs
  induction cs with
  | nil => intro d0 _; rfl
  | cons pe rest ih =>
    intro d0 hno
    rw [List.foldl_cons, if_neg (hno pe (List.mem_cons_self pe rest))]
    exact ih d0 (fun q hq => hno q (List.mem_cons_of_mem pe hq))

theorem claimsGo_mem_snd (o : List Nat) : ∀ (ctr : Nat → Nat) {pe : Nat × Nat},
    pe ∈ (claimsGo ctr o).2 → pe.2 ∈ o := by
  induction o with
  | nil => intro ctr pe hm; simp [claimsGo] at hm
  | cons e rest ih =>
    intro ctr pe hm
    simp only [claimsGo] at hm
    rcases List.mem_cons.mp hm with he | hr
    · subst he
      exact List.mem_cons_self e rest
    · exact List.mem_cons_of_mem e (ih _ hr)

theorem claimsGo_mem_bounds (o : List Nat) (ctr : Nat → Nat) {p e : Nat}
    (hmem : (p, e) ∈ (claimsGo ctr o).2) :
    ctr (bucketOf e) ≤ p ∧ p < ctr (bucketOf e) + cntB o (bucketOf e) := by
  have hf : (p, e) ∈ (claimsGo ctr o).2.filter
      (fun pe => decide (bucketOf pe.2 = bucketOf e)) :=
    List.mem_filter.mpr ⟨hmem, by simp⟩
  rw [claimsGo_slice] at hf
  have hz := (List.of_mem_zip hf).1
  rwa [List.mem_range'_1] at hz

theorem claimsGo_at_first (o : List Nat) (ctr : Nat → Nat) (h e0 : Nat) (tl : List Nat)
    (hfl : o.filter (fun e => decide (bucketOf e = h)) = e0 :: tl)
    (HD : ∀ g, g ≠ h → 0 < cntB o g → ctr h < ctr g ∨ ctr g + cntB o g ≤ ctr h) :
    (ctr h, e0) ∈ (claimsGo ctr o).2 ∧
      ∀ q ∈ (claimsGo ctr o).2, q.1 = ctr h → q.2 = e0 := by
  have hcnt : cntB o h = tl.length + 1 := by
    rw [cntB_eq_filter_length, hfl]
    simp
  have hslice := claimsGo_slice o ctr h
  rw [hfl, hcnt, List.range'_succ, List.zip_cons_cons] at hslice
  constructor
  · have hm : (ctr h, e0) ∈ (claimsGo ctr o).2.filter
        (fun pe => decide (bucketOf pe.2 = h)) := by
      rw [hslice]
      exact List.mem_cons_self _ _
    exact List.mem_of_mem_filter hm
  · rintro ⟨q1, q2⟩ hq hq1
    simp only [] at hq1
    have hb := claimsGo_mem_bounds o ctr hq
    by_cases hgh : bucketOf q2 = h
    · have hqf : (q1, q2) ∈ (claimsGo ctr o).2.filter
          (fun pe => decide (bucketOf pe.2 = h)) :=
        List.mem_filter.mpr ⟨hq, by simpa using hgh⟩
      rw [hslice] at hqf
      rcases List.mem_cons.mp hqf with hh | ht
      · simpa using congrArg Prod.snd hh
      · have hr := (List.of_mem_zip ht).1
        rw [List.mem_range'_1] at hr
        omega
    · have hcg : 0 < cntB o (bucketOf q2) := by omega
      rcases HD _ hgh hcg with h1 | h2 <;> omega

theorem zip_map_snd : ∀ (l1 l2 : List Nat), l1.length = l2.length →
    (l1.zip l2).map Prod.snd = l2 := by
  intro l1
  induction l1 with
  | nil =>
    intro l2 hl
    have : l2 = [] := List.eq_nil_of_length_eq_zero (by simpa using hl.symm)
    subst this
    rfl
  | cons x xs ih =>
    intro l2 hl
    cases l2 with
    | nil => simp at hl
    | cons y ys =>
      rw [List.zip_cons_cons, List.map_cons, ih ys (by simpa using hl)]

theorem zip_snd_tail {q w : Nat} : ∀ (l : List Nat) (a : Nat),
    (q, w) ∈ (List.range' a l.length).zip l → q ≠ a → w ∈ l.tail := by
  intro l a hm hq
  cases l with
  | nil => simp at hm
  | cons x xs =>
    rw [List.length_cons, List.range'_succ, List.zip_cons_cons] at hm
    rcases List.mem_cons.mp hm with hh | ht
    · exact absurd (by simpa using congrArg Prod.fst hh) hq
    · exact (List.of_mem_zip ht).2

theorem bufApply_zip (dict : Nat → Nat) :
    ∀ (l : List Nat) (a p : Nat),
      bufApply dict ((List.range' a l.length).zip l) p =
        if a ≤ p ∧ p < a + l.length then l.getD (p - a) 0 else dict p := by
  intro l
  induction l with
  | nil =>
    intro a p
    rw [List.length_nil, if_neg (by omega)]
    rfl
  | cons x xs ih =>
    intro a p
    rw [List.length_cons, List.range'_succ, List.zip_cons_cons]
    unfold bufApply
    by_cases hp : a = p
    · rw [List.find?_cons_of_pos _ (by simpa using hp)]
      subst hp
      rw [if_pos (by omega)]
      simp
    · rw [List.find?_cons_of_neg _ (by simpa using hp)]
      have hih := ih (a + 1) p
      unfold bufApply at hih
      rw [hih]
      by_cases hin : a + 1 ≤ p ∧ p < a + 1 + xs.length
      · rw [if_pos hin, if_pos (by omega)]
        have hpa : p - a = (p - (a + 1)) + 1 := by omega
        rw [hpa, List.getD_cons_succ]
      · rw [if_neg hin, if_neg (by omega)]

theorem foldl_min_le_all : ∀ (l : List Nat) (a : Nat), (∀ x ∈ l, a ≤ x) →
    l.foldl min a = a := by
  intro l
  induction l with
  | nil => intro a _; rfl
  | cons x xs ih =>
    intro a hle
    rw [List.foldl_cons]
    have hax : min a x = a := Nat.min_eq_left (hle x (List.mem_cons_self x xs))
    rw [hax]
    exact ih a (fun y hy => hle y (List.mem_cons_of_mem x hy))

theorem foldl_min_eq_listMin : ∀ (l : List Nat) (a : Nat), a < 2 ^ 62 →
    (∀ x ∈ l, x < 2 ^ 62) → l.foldl min a = listMin (a :: l) := by
  intro l
  induction l with
  | nil =>
    intro a ha _
    simp only [List.foldl_nil, listMin, List.foldr_cons, List.foldr_nil]
    omega
  | cons x xs ih =>
    intro a ha hl
    rw [List.foldl_cons,
      ih (min a x) (by omega) (fun y hy => hl y (List.mem_cons_of_mem x hy))]
    simp only [listMin, List.foldr_cons]
    rw [min_assoc]

theorem insertBatch_ctr (ctr dict : Nat → Nat) (o : List Nat) (g : Nat) :
    (insertBatch ctr dict o).1 g = ctr g + cntB o g :=
  claimsGo_ctr o ctr g

theorem battColliders_mem (ctr : Nat → Nat) (o : List Nat) {pe : Nat × Nat}
    (hq : pe ∈ battColliders ctr o) :
    pe ∈ (claimsGo ctr o).2 ∧ pe.1 ≠ ctr (bucketOf pe.2) ∧
      ctr (bucketOf pe.2) + 1 < ctr (bucketOf pe.2) + cntB o (bucketOf pe.2) := by
  have h1 := List.mem_of_mem_filter hq
  have h2 := (List.mem_filter.mp hq).2
  simp only [Bool.and_eq_true, decide_eq_true_eq] at h2
  refine ⟨h1, h2.1, ?_⟩
  have h3 := h2.2
  rwa [claimsGo_ctr] at h3

theorem insertBatch_frame (ctr dict : Nat → Nat) (o : List Nat) (p : Nat)
    (hp : ∀ g, 0 < cntB o g → p < ctr g ∨ ctr g + cntB o g ≤ p) :
    (insertBatch ctr dict o).2 p = dict p := by
  have hws : ∀ q ∈ (claimsGo ctr o).2, q.1 ≠ p := by
    rintro ⟨q1, q2⟩ hq heq
    have heq' : q1 = p := heq
    have hb := claimsGo_mem_bounds o ctr hq
    have hc : 0 < cntB o (bucketOf q2) := by omega
    rcases hp _ hc with h1 | h2 <;> omega
  have hcol : ∀ q ∈ battColliders ctr o, q.1 ≠ p :=
    fun q hq => hws q (List.mem_of_mem_filter hq)
  show ((battColliders ctr o).foldl
      (fun d pe =>
        if pe.2 = battDict2 ctr dict o (ctr (bucketOf pe.2)) then
          Function.update d pe.1 (battDict1 ctr dict o (ctr (bucketOf pe.2)))
        else d)
      (battDict2 ctr dict o)) p = dict p
  rw [dict3_fold_frame ctr (battDict1 ctr dict o) (battDict2 ctr dict o)
    (battColliders ctr o) (battDict2 ctr dict o) p hcol]
  unfold battDict2
  rw [dict2_fold_apply]
  have hnil : (battColliders ctr o).filter
      (fun pe => decide (ctr (bucketOf pe.2) = p)) = [] := by
    rw [List.filter_eq_nil_iff]
    rintro ⟨q1, q2⟩ hq
    simp only [decide_eq_true_eq]
    have hb := claimsGo_mem_bounds o ctr (List.mem_of_mem_filter hq)
    have hc : 0 < cntB o (bucketOf q2) := by omega
    rcases hp _ hc with h1 | h2 <;> omega
  rw [hnil]
  simp only [List.map_nil, List.foldl_nil]
  unfold battDict1
  exact bufApply_eq_of_notMem dict p _ hws

theorem insertBatch_owner (ctr dict : Nat → Nat) (o : List Nat) (h : Nat)
    (he : ∀ e ∈ o, e < 2 ^ 62) (hpos : 0 < cntB o h)
    (HD : ∀ g, g ≠ h → 0 < cntB o g → ctr h < ctr g ∨ ctr g + cntB o g ≤ ctr h) :
    (insertBatch ctr dict o).2 (ctr h) =
      listMin (o.filter (fun e => decide (bucketOf e = h))) := by
  obtain ⟨e0, tl, hfl⟩ : ∃ e0 tl,
      o.filter (fun e => decide (bucketOf e = h)) = e0 :: tl := by
    apply List.exists_cons_of_ne_nil
    intro hnil
    rw [cntB_eq_filter_length, hnil] at hpos
    simp at hpos
  obtain ⟨hmem0, huniq⟩ := claimsGo_at_first o ctr h e0 tl hfl HD
  have hcnt : cntB o h = tl.length + 1 := by
    rw [cntB_eq_filter_length, hfl]
    simp
  have hbe0 : bucketOf e0 = h := by
    have hm : e0 ∈ o.filter (fun e => decide (bucketOf e = h)) := by
      rw [hfl]; exact List.mem_cons_self _ _
    simpa using (List.mem_filter.mp hm).2
  have htlb : ∀ w ∈ tl, bucketOf w = h := by
    intro w hw
    have hm : w ∈ o.filter (fun e => decide (bucketOf e = h)) := by
      rw [hfl]; exact List.mem_cons_of_mem _ hw
    simpa using (List.mem_filter.mp hm).2
  have he0o : e0 ∈ o := by
    have hm : e0 ∈ o.filter (fun e => decide (bucketOf e = h)) := by
      rw [hfl]; exact List.mem_cons_self _ _
    exact List.mem_of_mem_filter hm
  have htlo : ∀ w ∈ tl, w ∈ o := by
    intro w hw
    have hm : w ∈ o.filter (fun e => decide (bucketOf e = h)) := by
      rw [hfl]; exact List.mem_cons_of_mem _ hw
    exact List.mem_of_mem_filter hm
  have hcolpos : ∀ q ∈ battColliders ctr o, q.1 ≠ ctr h := by
    rintro ⟨q1, q2⟩ hq heq
    have heq' : q1 = ctr h := heq
    obtain ⟨hqw, hne, hge2⟩ := battColliders_mem ctr o hq
    have hb := claimsGo_mem_bounds o ctr hqw
    by_cases hgh : bucketOf q2 = h
    · rw [hgh] at hne
      exact hne heq
    · have hc : 0 < cntB o (bucketOf q2) := by omega
      rcases HD _ hgh hc with h1 | h2 <;> omega
  have hstep1 : (insertBatch ctr dict o).2 (ctr h) = battDict2 ctr dict o (ctr h) := by
    show ((battColliders ctr o).foldl
        (fun d pe =>
          if pe.2 = battDict2 ctr dict o (ctr (bucketOf pe.2)) then
            Function.update d pe.1 (battDict1 ctr dict o (ctr (bucketOf pe.2)))
          else d)
        (battDict2 ctr dict o)) (ctr h) = _
    exact dict3_fold_frame ctr (battDict1 ctr dict o) (battDict2 ctr dict o)
      (battColliders ctr o) (battDict2 ctr dict o) (ctr h) hcolpos
  have hd1 : battDict1 ctr dict o (ctr h) = e0 := by
    unfold battDict1
    exact bufApply_eq_of_mem dict (ctr h) e0 _ hmem0 huniq
  have hslice := claimsGo_slice o ctr h
  rw [hfl, hcnt, List.range'_succ, List.zip_cons_cons] at hslice
  have hcfil : ((battColliders ctr o).filter
      (fun pe => decide (ctr (bucketOf pe.2) = ctr h))).map Prod.snd = tl := by
    have hA : (battColliders ctr o).filter
        (fun pe => decide (ctr (bucketOf pe.2) = ctr h)) =
        (claimsGo ctr o).2.filter (fun pe =>
          decide (ctr (bucketOf pe.2) = ctr h) &&
            (decide (pe.1 ≠ ctr (bucketOf pe.2)) &&
              decide (ctr (bucketOf pe.2) + 1 < (claimsGo ctr o).1 (bucketOf pe.2)))) := by
      unfold battColliders
      rw [List.filter_filter]
    have hB : (claimsGo ctr o).2.filter (fun pe =>
          decide (ctr (bucketOf pe.2) = ctr h) &&
            (decide (pe.1 ≠ ctr (bucketOf pe.2)) &&
              decide (ctr (bucketOf pe.2) + 1 < (claimsGo ctr o).1 (bucketOf pe.2)))) =
        (claimsGo ctr o).2.filter (fun pe =>
          (decide (pe.1 ≠ ctr (bucketOf pe.2)) &&
              decide (ctr (bucketOf pe.2) + 1 < (claimsGo ctr o).1 (bucketOf pe.2))) &&
            decide (bucketOf pe.2 = h)) := by
      apply List.filter_congr
      rintro ⟨q1, q2⟩ hq
      have hiff : decide (ctr (bucketOf (q1, q2).2) = ctr h) =
          decide (bucketOf (q1, q2).2 = h) := by
        by_cases hgh : bucketOf q2 = h
        · show decide (ctr (bucketOf q2) = ctr h) = decide (bucketOf q2 = h)
          rw [hgh]
          simp
        · show decide (ctr (bucketOf q2) = ctr h) = decide (bucketOf q2 = h)
          have hb := claimsGo_mem_bounds o ctr hq
          have hc : 0 < cntB o (bucketOf q2) := by omega
          have hne2 : ctr (bucketOf q2) ≠ ctr h := by
            rcases HD _ hgh hc with h1 | h2 <;> omega
          simp [hgh, hne2]
      rw [hiff, Bool.and_comm]
    have hC : (claimsGo ctr o).2.filter (fun pe =>
          (decide (pe.1 ≠ ctr (bucketOf pe.2)) &&
              decide (ctr (bucketOf pe.2) + 1 < (claimsGo ctr o).1 (bucketOf pe.2))) &&
            decide (bucketOf pe.2 = h)) =
        ((claimsGo ctr o).2.filter (fun pe => decide (bucketOf pe.2 = h))).filter
          (fun pe =>
            decide (pe.1 ≠ ctr (bucketOf pe.2)) &&
              decide (ctr (bucketOf pe.2) + 1 < (claimsGo ctr o).1 (bucketOf pe.2))) := by
      rw [List.filter_filter]
    rw [hA, hB, hC, hslice]
    have hhead : ¬((fun pe : Nat × Nat =>
        decide (pe.1 ≠ ctr (bucketOf pe.2)) &&
          decide (ctr (bucketOf pe.2) + 1 < (claimsGo ctr o).1 (bucketOf pe.2)))
        (ctr h, e0) = true) := by
      simp only [Bool.and_eq_true, decide_eq_true_eq]
      rintro ⟨hcontra, -⟩
      exact hcontra (by rw [hbe0])
    rw [@List.filter_cons_of_neg (Nat × Nat)
      (fun pe =>
        decide (pe.1 ≠ ctr (bucketOf pe.2)) &&
          decide (ctr (bucketOf pe.2) + 1 < (claimsGo ctr o).1 (bucketOf pe.2)))
      (ctr h, e0) ((List.range' (ctr h + 1) tl.length).zip tl) hhead]
    have hkeep : ((List.range' (ctr h + 1) tl.length).zip tl).filter
        (fun pe =>
          decide (pe.1 ≠ ctr (bucketOf pe.2)) &&
            decide (ctr (bucketOf pe.2) + 1 < (claimsGo ctr o).1 (bucketOf pe.2))) =
        (List.range' (ctr h + 1) tl.length).zip tl := by
      apply List.filter_eq_self.mpr
      rintro ⟨q1, q2⟩ hqz
      have hq1 := (List.of_mem_zip hqz).1
      have hq2 := (List.of_mem_zip hqz).2
      rw [List.mem_range'_1] at hq1
      have hb2 : bucketOf q2 = h := htlb q2 hq2
      have htl1 : 0 < tl.length := List.length_pos.mpr (by
        intro hnil
        rw [hnil] at hq2
        simp at hq2)
      simp only [Bool.and_eq_true, decide_eq_true_eq]
      constructor
      · show q1 ≠ ctr (bucketOf q2)
        rw [hb2]
        omega
      · show ctr (bucketOf q2) + 1 < (claimsGo ctr o).1 (bucketOf q2)
        rw [hb2, claimsGo_ctr]
        omega
    rw [hkeep]
    exact zip_map_snd _ tl (by rw [List.length_range'])
  have hstep2 : battDict2 ctr dict o (ctr h) = tl.foldl min e0 := by
    unfold battDict2
    rw [dict2_fold_apply, hcfil, hd1]
  rw [hstep1, hstep2, hfl]
  exact foldl_min_eq_listMin tl e0 (he e0 he0o) (fun x hx => he x (htlo x hx))

theorem insertBatch_sorted (ctr dict : Nat → Nat) (o : List Nat) (h : Nat)
    (hall : ∀ e ∈ o, bucketOf e = h) (hsort : o.Pairwise (· < ·)) (p : Nat) :
    (insertBatch ctr dict o).2 p =
      if ctr h ≤ p ∧ p < ctr h + o.length then o.getD (p - ctr h) 0 else dict p := by
  cases o with
  | nil =>
    show ((battColliders ctr []).foldl
        (fun d pe =>
          if pe.2 = battDict2 ctr dict [] (ctr (bucketOf pe.2)) then
            Function.update d pe.1 (battDict1 ctr dict [] (ctr (bucketOf pe.2)))
          else d)
        (battDict2 ctr dict [])) p = _
    have h1 : battColliders ctr [] = [] := rfl
    rw [h1, List.foldl_nil, List.length_nil, if_neg (by omega)]
    rfl
  | cons x xs =>
    have hflt : (x :: xs).filter (fun e => decide (bucketOf e = h)) = x :: xs :=
      List.filter_eq_self.mpr (fun e hee => by simpa using hall e hee)
    have hcnt : cntB (x :: xs) h = (x :: xs).length :=
      List.countP_eq_length.mpr (fun e hee => by simpa using hall e hee)
    have hslice := claimsGo_slice (x :: xs) ctr h
    rw [hflt, hcnt] at hslice
    have hws : (claimsGo ctr (x :: xs)).2 =
        (List.range' (ctr h) (x :: xs).length).zip (x :: xs) := by
      rw [← hslice]
      exact (List.filter_eq_self.mpr (fun pe hpe => by
        simpa using hall pe.2 (claimsGo_mem_snd _ ctr hpe))).symm
    have hd1 : ∀ q, battDict1 ctr dict (x :: xs) q =
        if ctr h ≤ q ∧ q < ctr h + (x :: xs).length then
          (x :: xs).getD (q - ctr h) 0
        else dict q := by
      intro q
      unfold battDict1
      rw [hws]
      exact bufApply_zip dict (x :: xs) (ctr h) q
    have hd1h : battDict1 ctr dict (x :: xs) (ctr h) = x := by
      rw [hd1, if_pos (by simp)]
      simp
    have hxmin : ∀ y ∈ x :: xs, x ≤ y := by
      intro y hy
      rcases List.mem_cons.mp hy with rfl | hys
      · exact Nat.le_refl _
      · exact Nat.le_of_lt ((List.pairwise_cons.mp hsort).1 y hys)
    have hd2 : ∀ q, battDict2 ctr dict (x :: xs) q = battDict1 ctr dict (x :: xs) q := by
      intro q
      unfold battDict2
      rw [dict2_fold_apply]
      by_cases hq : ctr h = q
      · subst hq
        rw [hd1h]
        apply foldl_min_le_all
        intro v hv
        obtain ⟨⟨q1, q2⟩, hpe, rfl⟩ := List.mem_map.mp hv
        exact hxmin _ (claimsGo_mem_snd _ ctr
          (List.mem_of_mem_filter (List.mem_of_mem_filter hpe)))
      · have hnil : (battColliders ctr (x :: xs)).filter
            (fun pe => decide (ctr (bucketOf pe.2) = q)) = [] := by
          rw [List.filter_eq_nil_iff]
          rintro ⟨q1, q2⟩ hc
          simp only [decide_eq_true_eq]
          have hb := hall q2 (claimsGo_mem_snd _ ctr (List.mem_of_mem_filter hc))
          show ¬ ctr (bucketOf q2) = q
          rw [hb]
          exact hq
        rw [hnil]
        rfl
    have hnos : ∀ pe ∈ battColliders ctr (x :: xs),
        pe.2 ≠ battDict2 ctr dict (x :: xs) (ctr (bucketOf pe.2)) := by
      rintro ⟨q1, q2⟩ hq
      obtain ⟨hqw, hne, _⟩ := battColliders_mem ctr _ hq
      have hb : bucketOf q2 = h := hall q2 (claimsGo_mem_snd _ ctr hqw)
      show q2 ≠ battDict2 ctr dict (x :: xs) (ctr (bucketOf q2))
      rw [hb, hd2, hd1h]
      have hq1ne : q1 ≠ ctr h := by
        intro hcontra
        apply hne
        show q1 = ctr (bucketOf q2)
        rw [hb]
        exact hcontra
      have hmemz : (q1, q2) ∈ (List.range' (ctr h) (x :: xs).length).zip (x :: xs) :=
        hws ▸ hqw
      have hq2tail : q2 ∈ xs := by
        simpa using zip_snd_tail (x :: xs) (ctr h) hmemz hq1ne
      have hxlt : x < q2 := (List.pairwise_cons.mp hsort).1 q2 hq2tail
      omega
    show ((battColliders ctr (x :: xs)).foldl
        (fun d pe =>
          if pe.2 = battDict2 ctr dict (x :: xs) (ctr (bucketOf pe.2)) then
            Function.update d pe.1 (battDict1 ctr dict (x :: xs) (ctr (bucketOf pe.2)))
          else d)
        (battDict2 ctr dict (x :: xs))) p = _
    rw [dict3_fold_noswap ctr (battDict1 ctr dict (x :: xs))
      (battDict2 ctr dict (x :: xs)) (battColliders ctr (x :: xs))
      (battDict2 ctr dict (x :: xs)) hnos]
    rw [hd2, hd1]

theorem cntB_append (l1 l2 : List Nat) (g : Nat) :
    cntB (l1 ++ l2) g = cntB l1 g + cntB l2 g := by
  simp [cntB, List.countP_append]

theorem cntB_perm {l1 l2 : List Nat} (hp : l1.Perm l2) (g : Nat) :
    cntB l1 g = cntB l2 g :=
  hp.countP_eq _

theorem foldr_min_perm {l1 l2 : List Nat} (hp : l1.Perm l2) :
    ∀ a : Nat, l1.foldr min a = l2.foldr min a := by
  induction hp with
  | nil => intro a; rfl
  | cons x h ih => intro a; rw [List.foldr_cons, List.foldr_cons, ih]
  | swap x y l =>
    intro a
    rw [List.foldr_cons, List.foldr_cons, List.foldr_cons, List.foldr_cons]
    exact min_left_comm y x _
  | trans h1 h2 ih1 ih2 => intro a; rw [ih1, ih2]

theorem listMin_perm {l1 l2 : List Nat} (hp : l1.Perm l2) : listMin l1 = listMin l2 :=
  foldr_min_perm hp _

theorem firstTouch_cons_pos (b : List Nat) (rest : List (List Nat)) (h : Nat)
    (hpos : 0 < cntB b h) :
    firstTouch (b :: rest) h = b.filter (fun e => decide (bucketOf e = h)) := by
  have hne : b.filter (fun e => decide (bucketOf e = h)) ≠ [] := by
    intro hnil
    rw [cntB_eq_filter_length, hnil] at hpos
    simp at hpos
  show (if b.filter (fun e => decide (bucketOf e = h)) = [] then firstTouch rest h
    else b.filter (fun e => decide (bucketOf e = h))) = _
  rw [if_neg hne]

theorem firstTouch_cons_zero (b : List Nat) (rest : List (List Nat)) (h : Nat)
    (hz : cntB b h = 0) : firstTouch (b :: rest) h = firstTouch rest h := by
  have hlen : (b.filter (fun e => decide (bucketOf e = h))).length = 0 := by
    rw [← cntB_eq_filter_length]
    exact hz
  have hnil := List.length_eq_zero.mp hlen
  show (if b.filter (fun e => decide (bucketOf e = h)) = [] then firstTouch rest h
    else b.filter (fun e => decide (bucketOf e = h))) = _
  rw [if_pos hnil]

theorem chunksGo_congr : ∀ (n m : Nat) (l : List Nat),
    l.length ≤ n → l.length ≤ m → chunksGo n l = chunksGo m l := by
  intro n
  induction n with
  | zero =>
    intro m l hn _
    have hl : l = [] := List.eq_nil_of_length_eq_zero (by omega)
    subst hl
    cases m with
    | zero => rfl
    | succ m =>
      show [] = if ([] : List Nat) = [] then [] else _
      rw [if_pos rfl]
  | succ n ih =>
    intro m l hn hm
    cases m with
    | zero =>
      have hl : l = [] := List.eq_nil_of_length_eq_zero (by omega)
      subst hl
      show (if ([] : List Nat) = [] then [] else _) = []
      rw [if_pos rfl]
    | succ m =>
      show (if l = [] then [] else l.take 512 :: chunksGo n (l.drop 512)) =
        (if l = [] then [] else l.take 512 :: chunksGo m (l.drop 512))
      by_cases hl : l = []
      · rw [if_pos hl, if_pos hl]
      · rw [if_neg hl, if_neg hl]
        have hlp : 0 < l.length := List.length_pos.mpr hl
        rw [ih m (l.drop 512) (by rw [List.length_drop]; omega)
          (by rw [List.length_drop]; omega)]

theorem chunks512_eq (l : List Nat) (hl : l ≠ []) :
    chunks512 l = l.take 512 :: chunks512 (l.drop 512) := by
  obtain ⟨x, xs, rfl⟩ := List.exists_cons_of_ne_nil hl
  show chunksGo (x :: xs).length (x :: xs) = _
  rw [List.length_cons]
  show (if (x :: xs) = [] then [] else
      (x :: xs).take 512 :: chunksGo xs.length ((x :: xs).drop 512)) = _
  rw [if_neg (by simp)]
  unfold chunks512
  rw [chunksGo_congr xs.length ((x :: xs).drop 512).length ((x :: xs).drop 512)
    (by rw [List.length_drop, List.length_cons]; omega) (Nat.le_refl _)]

theorem chunks512_flatten : ∀ (n : Nat) (l : List Nat), l.length ≤ n →
    (chunks512 l).flatten = l := by
  intro n
  induction n with
  | zero =>
    intro l hn
    have hl : l = [] := List.eq_nil_of_length_eq_zero (by omega)
    subst hl
    rfl
  | succ n ih =>
    intro l hn
    by_cases hl : l = []
    · subst hl; rfl
    · have hlp : 0 < l.length := List.length_pos.mpr hl
      rw [chunks512_eq l hl, List.flatten_cons,
        ih (l.drop 512) (by rw [List.length_drop]; omega),
        List.take_append_drop]

theorem bucketStart_succ (l : List Nat) (g : Nat) :
    bucketStart l (g + 1) = bucketStart l g + cntB l g := by
  unfold bucketStart
  rw [List.range_succ, List.map_append, List.sum_append]
  simp

theorem bucketStart_le (l : List Nat) : ∀ (g g' : Nat), g < g' →
    bucketStart l g + cntB l g ≤ bucketStart l g' := by
  intro g g'
  induction g' with
  | zero => intro h; omega
  | succ g' ih =>
    intro h
    rw [bucketStart_succ]
    by_cases hg : g = g'
    · subst hg; omega
    · have := ih (by omega)
      omega

theorem insertPhase_ctr : ∀ (os : List (List Nat)) (ctr dict : Nat → Nat) (g : Nat),
    (insertPhase ctr dict os).1 g = ctr g + cntB os.flatten g := by
  intro os
  induction os with
  | nil =>
    intro ctr dict g
    show ctr g = ctr g + cntB [] g
    rw [cntB_nil]
    omega
  | cons o rest ih =>
    intro ctr dict g
    show (insertPhase (insertBatch ctr dict o).1 (insertBatch ctr dict o).2 rest).1 g = _
    rw [ih, insertBatch_ctr, List.flatten_cons, cntB_append]
    omega

theorem insertPhase_spec :
    ∀ {os bs : List (List Nat)}, List.Forall₂ (fun o b => o.Perm b) os bs →
    ∀ (ctr dict : Nat → Nat),
      (∀ g g', g ≠ g' → 0 < cntB bs.flatten g → 0 < cntB bs.flatten g' →
        ctr g + cntB bs.flatten g ≤ ctr g' ∨ ctr g' + cntB bs.flatten g' ≤ ctr g) →
      (∀ e ∈ bs.flatten, e < 2 ^ 62) →
      ((∀ h, 0 < cntB bs.flatten h →
          (insertPhase ctr dict os).2 (ctr h) = listMin (firstTouch bs h)) ∧
       (∀ p, (∀ g, 0 < cntB bs.flatten g → p < ctr g ∨ ctr g + cntB bs.flatten g ≤ p) →
          (insertPhase ctr dict os).2 p = dict p)) := by
  intro os bs hforall
  induction hforall with
  | nil =>
    intro ctr dict hsep hbound
    constructor
    · intro h hpos
      simp [cntB] at hpos
    · intro p hp
      rfl
  | @cons o b os' bs' hob hrest ih =>
    intro ctr dict hsep hbound
    have hOB : ∀ g, cntB o g = cntB b g := fun g => cntB_perm hob g
    have hT : ∀ g, cntB ((b :: bs').flatten) g = cntB b g + cntB bs'.flatten g := by
      intro g
      rw [List.flatten_cons, cntB_append]
    have hctr' : ∀ g, (insertBatch ctr dict o).1 g = ctr g + cntB b g := by
      intro g
      rw [insertBatch_ctr, hOB]
    have hbound' : ∀ e ∈ bs'.flatten, e < 2 ^ 62 := by
      intro e he
      exact hbound e (by rw [List.flatten_cons]; exact List.mem_append_right _ he)
    have hboundb : ∀ e ∈ b, e < 2 ^ 62 := by
      intro e he
      exact hbound e (by rw [List.flatten_cons]; exact List.mem_append_left _ he)
    have hboundo : ∀ e ∈ o, e < 2 ^ 62 := fun e he => hboundb e (hob.subset he)
    have hsep' : ∀ g g', g ≠ g' → 0 < cntB bs'.flatten g → 0 < cntB bs'.flatten g' →
        (insertBatch ctr dict o).1 g + cntB bs'.flatten g ≤ (insertBatch ctr dict o).1 g' ∨
        (insertBatch ctr dict o).1 g' + cntB bs'.flatten g' ≤ (insertBatch ctr dict o).1 g := by
      intro g g' hne hg hg'
      have h1 := hsep g g' hne (by rw [hT]; omega) (by rw [hT]; omega)
      rw [hT g, hT g'] at h1
      rw [hctr' g, hctr' g']
      omega
    obtain ⟨ih1, ih2⟩ := ih (insertBatch ctr dict o).1 (insertBatch ctr dict o).2 hsep' hbound'
    have hphase : insertPhase ctr dict (o :: os') =
        insertPhase (insertBatch ctr dict o).1 (insertBatch ctr dict o).2 os' := rfl
    constructor
    · intro h hpos
      rw [hT] at hpos
      by_cases hbh : 0 < cntB b h
      · have hframe : (insertPhase (insertBatch ctr dict o).1
            (insertBatch ctr dict o).2 os').2 (ctr h) = (insertBatch ctr dict o).2 (ctr h) := by
          apply ih2
          intro g hg
          by_cases hgh : g = h
          · subst hgh
            left
            rw [hctr']
            omega
          · have hs := hsep g h hgh (by rw [hT]; omega) (by rw [hT]; omega)
            rw [hT g, hT h] at hs
            rw [hctr' g]
            omega
        have hHD : ∀ g, g ≠ h → 0 < cntB o g →
            ctr h < ctr g ∨ ctr g + cntB o g ≤ ctr h := by
          intro g hgh hg
          rw [hOB] at hg
          have hs := hsep g h hgh (by rw [hT]; omega) (by rw [hT]; omega)
          rw [hT g, hT h] at hs
          rw [hOB g]
          omega
        have hown := insertBatch_owner ctr dict o h hboundo (by rw [hOB]; exact hbh) hHD
        rw [hphase, hframe, hown, firstTouch_cons_pos b bs' h hbh]
        exact listMin_perm (hob.filter _)
      · have hbz : cntB b h = 0 := by omega
        have hRh : 0 < cntB bs'.flatten h := by omega
        have hceq : (insertBatch ctr dict o).1 h = ctr h := by
          rw [hctr', hbz]
          omega
        rw [hphase, ← hceq, ih1 h hRh, firstTouch_cons_zero b bs' h hbz]
    · intro p hp
      rw [hphase]
      have hstep : (insertPhase (insertBatch ctr dict o).1
          (insertBatch ctr dict o).2 os').2 p = (insertBatch ctr dict o).2 p := by
        apply ih2
        intro g hg
        have hpg := hp g (by rw [hT]; omega)
        rw [hT g] at hpg
        rw [hctr' g]
        omega
      rw [hstep]
      apply insertBatch_frame
      intro g hg
      rw [hOB] at hg
      have hpg := hp g (by rw [hT]; omega)
      rw [hT g] at hpg
      rw [hOB g]
      omega

theorem insertPhase_sorted (h : Nat) :
    ∀ (n : Nat) (l : List Nat), l.length ≤ n →
      (∀ e ∈ l, bucketOf e = h) → l.Pairwise (· < ·) →
      ∀ (ctr dict : Nat → Nat) (p : Nat),
        (insertPhase ctr dict (chunks512 l)).2 p =
          if ctr h ≤ p ∧ p < ctr h + l.length then l.getD (p - ctr h) 0 else dict p := by
  intro n
  induction n with
  | zero =>
    intro l hn hall hsort ctr dict p
    have hl : l = [] := List.eq_nil_of_length_eq_zero (by omega)
    subst hl
    rw [List.length_nil, if_neg (by omega)]
    rfl
  | succ n ih =>
    intro l hn hall hsort ctr dict p
    by_cases hl : l = []
    · subst hl
      rw [List.length_nil, if_neg (by omega)]
      rfl
    · rw [chunks512_eq l hl]
      have hlp : 0 < l.length := List.length_pos.mpr hl
      have hphase : insertPhase ctr dict (l.take 512 :: chunks512 (l.drop 512)) =
          insertPhase (insertBatch ctr dict (l.take 512)).1
            (insertBatch ctr dict (l.take 512)).2 (chunks512 (l.drop 512)) := rfl
      rw [hphase]
      have htall : ∀ e ∈ l.take 512, bucketOf e = h :=
        fun e he => hall e (List.take_subset 512 l he)
      have htsort : (l.take 512).Pairwise (· < ·) := hsort.sublist (List.take_sublist 512 l)
      have hdall : ∀ e ∈ l.drop 512, bucketOf e = h :=
        fun e he => hall e (List.drop_subset 512 l he)
      have hdsort : (l.drop 512).Pairwise (· < ·) := hsort.sublist (List.drop_sublist 512 l)
      have hcnt : cntB (l.take 512) h = (l.take 512).length :=
        List.countP_eq_length.mpr (fun e he => by simpa using htall e he)
      have hctr' : (insertBatch ctr dict (l.take 512)).1 h = ctr h + (l.take 512).length := by
        rw [insertBatch_ctr, hcnt]
      have hdlen : (l.drop 512).length ≤ n := by
        rw [List.length_drop]
        omega
      rw [ih (l.drop 512) hdlen hdall hdsort, hctr']
      have hbatch : (insertBatch ctr dict (l.take 512)).2 p =
          if ctr h ≤ p ∧ p < ctr h + (l.take 512).length then
            (l.take 512).getD (p - ctr h) 0
          else dict p :=
        insertBatch_sorted ctr dict (l.take 512) h htall htsort p
      rw [hbatch]
      have hsplit : l.length = (l.take 512).length + (l.drop 512).length := by
        rw [List.length_take, List.length_drop]
        omega
      by_cases hin2 : ctr h + (l.take 512).length ≤ p ∧
          p < ctr h + (l.take 512).length + (l.drop 512).length
      · rw [if_pos hin2, if_pos (by omega)]
        have hrw : l.getD (p - ctr h) 0 = (l.take 512 ++ l.drop 512).getD (p - ctr h) 0 := by
          rw [List.take_append_drop]
        rw [hrw, List.getD_append_right _ _ _ _ (by omega)]
        have heq : p - (ctr h + (l.take 512).length) = p - ctr h - (l.take 512).length := by
          omega
        rw [heq]
      · rw [if_neg hin2]
        by_cases hin1 : ctr h ≤ p ∧ p < ctr h + (l.take 512).length
        · rw [if_pos hin1, if_pos (by omega)]
          have hrw : l.getD (p - ctr h) 0 = (l.take 512 ++ l.drop 512).getD (p - ctr h) 0 := by
            rw [List.take_append_drop]
          rw [hrw, List.getD_append _ _ _ _ (by omega)]
        · rw [if_neg hin1, if_neg (by omega)]

theorem dupePhase_const (start N hv V : Nat) (dict ctrF : Nat → Nat)
    (hhv : hv < 2 ^ 12)
    (hdict : ∀ j, j < N → dict j = j * 2 ^ 12 + hv)
    (href : (if 0 < hv then ctrF (hv - 1) else 0) = 0)
    (hN : 1 ≤ N) :
    dupePhase start N (fun _ => V) dict ctrF =
      { dupes := N - 1, dupeDataSize := 4 * (N - 1),
        idxWrites := (List.range (N - 1)).map (fun k => (start + (k + 1), start ||| 2 ^ 31)),
        dataWrites := [(start, 0)] } := by
  have hd0 : dict 0 = hv := by
    rw [hdict 0 (by omega)]
    omega
  have hstep : ∀ (st : DupeSt) (j : Nat), j < N →
      dupeStep start (fun _ => V) dict ctrF st j =
        if j = 0 then { st with dataWrites := st.dataWrites ++ [(start + 0 - st.dupes, 0)] }
        else
          { st with
            dupes := st.dupes + 1
            dupeDataSize := st.dupeDataSize + 4
            idxWrites := st.idxWrites ++ [(start + j, start ||| 2 ^ 31)] } := by
    intro st j hj
    simp only [dupeStep]
    rw [hdict j hj]
    have hbk : bucketOf (j * 2 ^ 12 + hv) = hv := by
      show (j * 2 ^ 12 + hv) % 2 ^ 12 = hv
      omega
    rw [hbk, href, hd0]
    have h0 : hv / 2 ^ 12 = 0 := Nat.div_eq_of_lt hhv
    have hck : (j * 2 ^ 12 + hv) / 2 ^ 12 = j := by omega
    rw [h0, hck]
    by_cases hj0 : j = 0
    · subst hj0
      rw [if_pos rfl, if_neg (by omega)]
    · rw [if_neg hj0, if_pos ⟨hj0, trivial⟩]
      simp
  have key : ∀ k, k < N →
      (List.range (k + 1)).foldl (dupeStep start (fun _ => V) dict ctrF)
        { dupes := 0, dupeDataSize := 0, idxWrites := [], dataWrites := [] } =
      { dupes := k, dupeDataSize := 4 * k,
        idxWrites := (List.range k).map (fun i => (start + (i + 1), start ||| 2 ^ 31)),
        dataWrites := [(start, 0)] } := by
    intro k
    induction k with
    | zero =>
      intro hk
      rw [show List.range 1 = [0] from rfl, List.foldl_cons, List.foldl_nil]
      rw [hstep _ 0 hk, if_pos rfl]
      simp
    | succ k ih =>
      intro hk
      rw [List.range_succ, List.foldl_append, ih (by omega), List.foldl_cons, List.foldl_nil]
      rw [hstep _ (k + 1) hk, if_neg (by omega)]
      rw [List.range_succ, List.map_append]
      simp [Nat.mul_succ]
  show (List.range N).foldl (dupeStep start (fun _ => V) dict ctrF)
      { dupes := 0, dupeDataSize := 0, idxWrites := [], dataWrites := [] } = _
  have hkey := key (N - 1) (by omega)
  rw [show N - 1 + 1 = N from by omega] at hkey
  exact hkey

/-- The lane rank (count of valid lanes below) enumerates the valid lanes
with consecutive ranks `0, 1, 2, …` in lane order. -/
theorem rank_map (isv : Nat → Bool) (n : Nat) :
    ((List.range n).filter isv).map (laneRank isv) =
      List.range (((List.range n).filter isv).length) := by
  induction n with
  | zero => simp
  | succ n ih =>
    rw [List.range_succ, List.filter_append, List.map_append, ih]
    by_cases h : isv n
    · have hf : [n].filter isv = [n] := by simp [h]
      rw [hf]
      have hr : laneRank isv n = ((List.range n).filter isv).length := by
        simp [laneRank, List.countP_eq_length_filter]
      simp only [List.map_cons, List.map_nil, hr, List.length_append, hf,
        List.length_singleton]
      rw [List.range_succ]
    · have hf : [n].filter isv = [] := by simp [h]
      simp [hf]

/-- C5: `gpuDecideCompression` reads the wrong compressor entries.  For a
chunk with `first_page = 1` and one page, whose own entry
(`comp_out[1]`) reports status 0 and 5 bytes against 10 uncompressed, the
code reads `comp_out[0]` (another chunk's page, status 1) and falls back
to uncompressed with size 10 — while the claim's decision (own-page
entries) would mark it compressed with size 5. -/
theorem C5_status_indexing_wrong :
    gpuDecideCompression 1 1 c5PageSize (some c5CompOut) =
      { isCompressed := false, bfrSize := 10, compressedSize := 10 } ∧
    (c5CompOut 1).status = 0 ∧ (c5CompOut 1).bytesWritten = 5 ∧
      c5PageSize 1 = 10 ∧
    specDecideCompression 1 1 c5PageSize (some c5CompOut) =
      { isCompressed := true, bfrSize := 10, compressedSize := 5 } := by
  refine ⟨by decide, by decide, by decide, by decide, by decide⟩

/-- C6 counterexample: an INT32 column carrying a dictionary index buffer
is dictionary-eligible in the claim's sense, yet `gpuEncodePages` does
not take the RLE value path for it (`dict_bits` is nonzero only for
BOOLEAN, line 787); its values are written in plain form. -/
theorem C6_counterexample :
    specDictEligible c6Col = true ∧ valueStreamUsesRle c6Col = false :=
  ⟨rfl, rfl⟩

/-- C6 (amended): the RLE value path is taken exactly for BOOLEAN
columns (regardless of any dictionary index buffer); dictionary-eligible
non-BOOLEAN columns take the plain path.  On the RLE path each 128-row
batch compacts the valid lanes' raw column bytes by the ballot/prefix-sum
rank into dense consecutive buffer cells, but based at the post-batch
value count (line 823 sets the local `rle_numvals` to
`s->rle_numvals + s->scratch_red[3]` before the stores of line 826): the
`k`-th valid lane lands in cell `(numvals + count + k) % 512`, one
batch-total ahead of the window ending at `numvals + count` that the
immediately following `RleEncode` call consumes. -/
theorem C6_amended_rle_value_path (col : EncColDesc) (page : EncPageRec)
    (curRow : Nat) (st : EncSt) (hrle : valueStreamUsesRle col = true) :
    (valueStreamUsesRle col = true ↔ col.physicalType = PhysType.BOOLEAN) ∧
    (valueBatch col page curRow st).vals =
      bufApply st.vals
        (dictCompactWrites
          (st.rle.numvals +
            laneCount (fun t => isValidRow col (page.startRow + curRow + t)))
          (fun t => isValidRow col (page.startRow + curRow + t))
          (fun t => col.columnData (page.startRow + curRow + t) % 256)) ∧
    (valueBatch col page curRow st).rle =
      rleEncode (valueBatch col page curRow st).vals
        (st.rle.numvals +
          laneCount (fun t => isValidRow col (page.startRow + curRow + t)))
        (dictBitsOf col)
        (decide (curRow + min (page.numRows - curRow) 128 = page.numRows)) st.rle ∧
    (∀ (base : Nat) (isv : Nat → Bool) (value : Nat → Nat),
      (dictCompactWrites base isv value).map Prod.fst =
        (List.range (laneCount isv)).map (fun k => (base + k) % 512) ∧
      (dictCompactWrites base isv value).map Prod.snd =
        ((List.range 128).filter isv).map value) := by
  have hd : dictBitsOf col ≠ 0 := of_decide_eq_true hrle
  refine ⟨?_, ?_, ?_, ?_⟩
  · unfold valueStreamUsesRle dictBitsOf
    by_cases h : col.physicalType = PhysType.BOOLEAN <;> simp [h]
  · simp only [valueBatch]
    rw [if_pos hd]
  · simp only [valueBatch]
    rw [if_pos hd]
  · intro base isv value
    constructor
    · unfold dictCompactWrites
      rw [List.map_map]
      have hcomp : (Prod.fst ∘ fun t => ((base + laneRank isv t) % 512, value t)) =
          (fun r => (base + r) % 512) ∘ laneRank isv := rfl
      rw [hcomp, ← List.map_map, rank_map]
      have hlen : ((List.range 128).filter isv).length = laneCount isv := by
        simp [laneCount, List.countP_eq_length_filter]
      rw [hlen]
    · unfold dictCompactWrites
      rw [List.map_map]
      rfl

theorem C6_amended_witness :
    valueStreamUsesRle c8Col = true ∧
    ((valueStreamUsesRle c8Col = true ↔ c8Col.physicalType = PhysType.BOOLEAN) ∧
    (valueBatch c8Col c8Page 0 c6St).vals =
      bufApply c6St.vals
        (dictCompactWrites
          (c6St.rle.numvals +
            laneCount (fun t => isValidRow c8Col (c8Page.startRow + 0 + t)))
          (fun t => isValidRow c8Col (c8Page.startRow + 0 + t))
          (fun t => c8Col.columnData (c8Page.startRow + 0 + t) % 256)) ∧
    (valueBatch c8Col c8Page 0 c6St).rle =
      rleEncode (valueBatch c8Col c8Page 0 c6St).vals
        (c6St.rle.numvals +
          laneCount (fun t => isValidRow c8Col (c8Page.startRow + 0 + t)))
        (dictBitsOf c8Col)
        (decide (0 + min (c8Page.numRows - 0) 128 = c8Page.numRows)) c6St.rle ∧
    (∀ (base : Nat) (isv : Nat → Bool) (value : Nat → Nat),
      (dictCompactWrites base isv value).map Prod.fst =
        (List.range (laneCount isv)).map (fun k => (base + k) % 512) ∧
      (dictCompactWrites base isv value).map Prod.snd =
        ((List.range 128).filter isv).map value)) :=
  ⟨by decide, C6_amended_rle_value_path c8Col c8Page 0 c6St (by decide)⟩

set_option maxRecDepth 40000 in
/-- C8: the bytes written can exceed the reserved maximum.  For a
non-nullable BOOLEAN column of one row, `gpuInitPages` reserves
`max_data_size = 1` (one fragment byte, no definition-level estimate),
but the value RLE writes 2 bytes (a literal-run header and one packed
byte) into the data region; the recorded `s->cur`-based size is 0
because the dictionary/boolean path never advances `s->cur`. -/
theorem C8_actual_exceeds_reserved :
    c8Page.maxDataSize = 1 ∧
    logEnd (gpuEncodePagesModel c8Col c8Page).log = 2 ∧
    (gpuEncodePagesModel c8Col c8Page).actualDataSize = 0 ∧
    c8Page.maxDataSize < logEnd (gpuEncodePagesModel c8Col c8Page).log := by
  refine ⟨by decide, by decide, by decide, by decide⟩

/-- C10: the write-back of `gpuEncodePages` replaces exactly
`max_data_size` (with the recorded actual data size); every other field
of the page record is written back unchanged. -/
theorem C10_writeback_frame (col : EncColDesc) (page : EncPageRec) :
    (gpuEncodePagesModel col page).page.numFragments = page.numFragments ∧
    (gpuEncodePagesModel col page).page.chunkId = page.chunkId ∧
    (gpuEncodePagesModel col page).page.pageType = page.pageType ∧
    (gpuEncodePagesModel col page).page.hdrSize = page.hdrSize ∧
    (gpuEncodePagesModel col page).page.maxHdrSize = page.maxHdrSize ∧
    (gpuEncodePagesModel col page).page.pageData = page.pageData ∧
    (gpuEncodePagesModel col page).page.compressedData = page.compressedData ∧
    (gpuEncodePagesModel col page).page.startRow = page.startRow ∧
    (gpuEncodePagesModel col page).page.numRows = page.numRows ∧
    (gpuEncodePagesModel col page).page.maxDataSize =
      (gpuEncodePagesModel col page).actualDataSize :=
  ⟨rfl, rfl, rfl, rfl, rfl, rfl, rfl, rfl, rfl, rfl⟩

theorem varintDecode_cpwPutUint32 (v : Nat) : varintDecode (cpwPutUint32 v) = v := by
  induction v using Nat.strong_induction_on with
  | _ v ih =>
    rw [cpwPutUint32]
    by_cases h : 0x7f < v
    · rw [dif_pos h]
      have hlt : v / 128 < v := Nat.div_lt_self (by omega) (by omega)
      have hrec := ih (v / 128) hlt
      simp only [varintDecode, hrec]
      rw [if_pos (by omega : 128 ≤ (v % 128 + 128) % 256)]
      omega
    · rw [dif_neg h]
      simp only [varintDecode]
      rw [if_neg (by omega : ¬ 128 ≤ v % 256)]
      omega

theorem zigzagDecode_zigzag32 (v : Int) (hv : v.natAbs < 2 ^ 31) :
    zigzagDecode (zigzag32 v) = v := by
  rcases lt_or_le v 0 with hneg | hpos
  · have h0 : zigzag32 v = 2 * v.natAbs - 1 := by
      unfold zigzag32
      rw [if_pos hneg]
      have h1 : (-2 * v - 1).toNat = 2 * v.natAbs - 1 := by omega
      rw [h1, Nat.mod_eq_of_lt (by omega)]
    rw [h0]
    unfold zigzagDecode
    rw [if_pos (by omega : (2 * v.natAbs - 1) % 2 = 1)]
    omega
  · have h0 : zigzag32 v = 2 * v.natAbs := by
      unfold zigzag32
      rw [if_neg (by omega : ¬ v < 0)]
      have h1 : (2 * v).toNat = 2 * v.natAbs := by omega
      rw [h1, Nat.mod_eq_of_lt (by omega)]
    rw [h0]
    unfold zigzagDecode
    rw [if_neg (by omega : ¬ 2 * v.natAbs % 2 = 1)]
    omega

/-- C4 counterexample: a page already holding exactly half of the chunk's
rows (1 of 2) gets the 256 KiB threshold from the code, not the 384 KiB
the claim states for "at least half but under two-thirds". -/
theorem C4_counterexample :
    maxPageSize 1 2 = 256 * 1024 ∧ claimPageSizeLimit 1 2 = 384 * 1024 ∧
      maxPageSize 1 2 ≠ claimPageSizeLimit 1 2 := by decide

/-- C4 (amended): a page boundary is cut before adding a fragment exactly
when the chunk's rows are exhausted or the fragment would push the page
past the current threshold; the threshold is 512 KiB while the page holds
less than one-third of the chunk's rows, 384 KiB from one-third up to
(excluding) one-half, and 256 KiB once the page holds at least half. -/
theorem C4_amended_cut_and_thresholds
    (rows ck pageSize fragSize done : Nat) :
    (pageCut done ck pageSize fragSize rows = true ↔
      (ck ≤ done ∨ maxPageSize rows ck < pageSize + fragSize)) ∧
    (2 * rows ≥ ck → maxPageSize rows ck = 256 * 1024) ∧
    (2 * rows < ck → 3 * rows ≥ ck → maxPageSize rows ck = 384 * 1024) ∧
    (3 * rows < ck → maxPageSize rows ck = 512 * 1024) := by
  refine ⟨?_, ?_, ?_, ?_⟩
  · simp only [pageCut, Bool.or_eq_true, decide_eq_true_eq, ge_iff_le, gt_iff_lt]
  · intro h
    simp only [maxPageSize, ge_iff_le, if_pos (by omega : ck ≤ rows * 2)]
  · intro h1 h2
    simp only [maxPageSize, ge_iff_le]
    rw [if_neg (by omega), if_pos (by omega)]
  · intro h
    simp only [maxPageSize, ge_iff_le]
    rw [if_neg (by omega), if_neg (by omega)]

theorem C4_amended_witness :
    2 * 1 ≥ 2 ∧ maxPageSize 1 2 = 256 * 1024 :=
  ⟨by decide, (C4_amended_cut_and_thresholds 1 2 0 0 0).2.1 (by decide)⟩

/-- C9: the field header is a single delta-nibble/type byte exactly when
the new field id exceeds the previous one by 1..15; otherwise it is the
type byte followed by the zig-zag varint of the field id, and that varint
decodes back to the field id. -/
theorem C9_fldh_spec (f cur : Int) (ty : Nat) (hty : ty < 16)
    (hf : f.natAbs < 2 ^ 31) :
    (cur < f ∧ f ≤ cur + 15 →
      cpwPutFldh f cur ty = [(f - cur).toNat * 16 + ty] ∧
        ((f - cur).toNat * 16 + ty) / 16 = (f - cur).toNat ∧
        ((f - cur).toNat * 16 + ty) % 16 = ty) ∧
    (¬(cur < f ∧ f ≤ cur + 15) →
      cpwPutFldh f cur ty = ty :: cpwPutInt32 f ∧
        zigzagDecode (varintDecode (cpwPutInt32 f)) = f) := by
  constructor
  · intro h
    refine ⟨?_, ?_, ?_⟩
    · unfold cpwPutFldh
      rw [if_pos h, Nat.mod_eq_of_lt hty, Nat.mod_eq_of_lt (by omega)]
    · omega
    · omega
  · intro h
    refine ⟨?_, ?_⟩
    · unfold cpwPutFldh
      rw [if_neg h, Nat.mod_eq_of_lt (by omega)]
    · unfold cpwPutInt32
      rw [varintDecode_cpwPutUint32]
      exact zigzagDecode_zigzag32 f hf

theorem C9_fldh_witness :
    ((7 : Nat) < 16 ∧ (Int.natAbs 3) < 2 ^ 31 ∧ (2 : Int) < 3 ∧ (3 : Int) ≤ 2 + 15) ∧
      cpwPutFldh 3 2 7 = [((3 : Int) - 2).toNat * 16 + 7] :=
  ⟨by decide, ((C9_fldh_spec 3 2 7 (by decide) (by decide)).1 ⟨by decide, by decide⟩).1⟩

/-- C2: for a fragment of `N` rows, all valid and all holding the same
value `V`, the dictionary analysis of `gpuInitPageFragments` records
exactly one unique dictionary entry (`num_dict_vals = 1`), tags the other
`N - 1` rows as duplicates by storing, at each duplicate row's own
position in the dictionary index buffer, the owner's row index
(`startRow`, the fragment's first row, owner of the single unique value)
with the top bit (bit 31) set, and compacts the single unique entry into
the dictionary data index. -/
theorem C2_constant_dictionary (N V startRow : Nat) (hN : 1 ≤ N) :
    (fragInit startRow N (fun _ => true) (fun _ => V)).numDictVals = 1 ∧
    (fragInit startRow N (fun _ => true) (fun _ => V)).totalDupes = N - 1 ∧
    (fragInit startRow N (fun _ => true) (fun _ => V)).dictIndexWrites =
      (List.range (N - 1)).map (fun k => (startRow + (k + 1), startRow ||| 2 ^ 31)) ∧
    (fragInit startRow N (fun _ => true) (fun _ => V)).dictDataWrites = [(startRow, 0)] := by
  have hvlt : hash32 V < 2 ^ 12 := by
    unfold hash32
    omega
  have hfil : (List.range N).filter (fun _ => true) = List.range N := List.filter_true _
  simp only [fragInit, hfil, List.length_range]
  have hallE : ∀ e ∈ (List.range N).map (fun i => i * 2 ^ 12 + hash32 V),
      bucketOf e = hash32 V := by
    intro e he
    obtain ⟨i, -, rfl⟩ := List.mem_map.mp he
    show (i * 2 ^ 12 + hash32 V) % 2 ^ 12 = hash32 V
    omega
  have hsortE : ((List.range N).map (fun i => i * 2 ^ 12 + hash32 V)).Pairwise (· < ·) :=
    (List.pairwise_lt_range N).map _ (fun a b hab => by omega)
  have hcntE : ∀ g, cntB ((List.range N).map (fun i => i * 2 ^ 12 + hash32 V)) g =
      if g = hash32 V then N else 0 := by
    intro g
    by_cases hg : g = hash32 V
    · subst hg
      rw [if_pos rfl, cntB, List.countP_eq_length.mpr (fun e he => by simpa using hallE e he),
        List.length_map, List.length_range]
    · rw [if_neg hg, cntB, List.countP_eq_zero.mpr]
      intro e he
      simp only [decide_eq_true_eq]
      rw [hallE e he]
      exact fun hh => hg hh.symm
  have hbs0 : ∀ g, g ≤ hash32 V →
      bucketStart ((List.range N).map (fun i => i * 2 ^ 12 + hash32 V)) g = 0 := by
    intro g hg
    unfold bucketStart
    apply List.sum_eq_zero
    intro x hx
    obtain ⟨g', hg', rfl⟩ := List.mem_map.mp hx
    rw [List.mem_range] at hg'
    rw [hcntE, if_neg (by omega)]
  have hElen : ((List.range N).map (fun i => i * 2 ^ 12 + hash32 V)).length = N := by
    rw [List.length_map, List.length_range]
  have hdict : ∀ j, j < N →
      (insertPhase (bucketStart ((List.range N).map (fun i => i * 2 ^ 12 + hash32 V)))
        (fun _ => 0)
        (chunks512 ((List.range N).map (fun i => i * 2 ^ 12 + hash32 V)))).2 j =
      j * 2 ^ 12 + hash32 V := by
    intro j hj
    rw [insertPhase_sorted (hash32 V)
      ((List.range N).map (fun i => i * 2 ^ 12 + hash32 V)).length
      ((List.range N).map (fun i => i * 2 ^ 12 + hash32 V))
      (Nat.le_refl _) hallE hsortE
      (bucketStart ((List.range N).map (fun i => i * 2 ^ 12 + hash32 V))) (fun _ => 0) j]
    rw [hbs0 (hash32 V) (Nat.le_refl _), hElen]
    rw [if_pos (by omega)]
    have hj0 : j - 0 = j := by omega
    rw [hj0, List.getD_eq_getElem _ 0 (by rw [hElen]; omega)]
    rw [List.getElem_map, List.getElem_range]
  have hctrF : ∀ g,
      (insertPhase (bucketStart ((List.range N).map (fun i => i * 2 ^ 12 + hash32 V)))
        (fun _ => 0)
        (chunks512 ((List.range N).map (fun i => i * 2 ^ 12 + hash32 V)))).1 g =
      bucketStart ((List.range N).map (fun i => i * 2 ^ 12 + hash32 V)) g +
        cntB ((List.range N).map (fun i => i * 2 ^ 12 + hash32 V)) g := by
    intro g
    rw [insertPhase_ctr,
      chunks512_flatten ((List.range N).map (fun i => i * 2 ^ 12 + hash32 V)).length
        ((List.range N).map (fun i => i * 2 ^ 12 + hash32 V)) (Nat.le_refl _)]
  have href : (if 0 < hash32 V then
      (insertPhase (bucketStart ((List.range N).map (fun i => i * 2 ^ 12 + hash32 V)))
        (fun _ => 0)
        (chunks512 ((List.range N).map (fun i => i * 2 ^ 12 + hash32 V)))).1 (hash32 V - 1)
      else 0) = 0 := by
    by_cases hv0 : 0 < hash32 V
    · rw [if_pos hv0, hctrF, hbs0 _ (by omega), hcntE, if_neg (by omega)]
    · rw [if_neg hv0]
  have hdupe := dupePhase_const startRow N (hash32 V) V
    (insertPhase (bucketStart ((List.range N).map (fun i => i * 2 ^ 12 + hash32 V)))
      (fun _ => 0)
      (chunks512 ((List.range N).map (fun i => i * 2 ^ 12 + hash32 V)))).2
    (insertPhase (bucketStart ((List.range N).map (fun i => i * 2 ^ 12 + hash32 V)))
      (fun _ => 0)
      (chunks512 ((List.range N).map (fun i => i * 2 ^ 12 + hash32 V)))).1
    hvlt hdict href hN
  rw [hdupe]
  refine ⟨?_, rfl, rfl, rfl⟩
  show N - (N - 1) = 1
  omega

theorem C2_witness :
    1 ≤ 3 ∧
    ((fragInit 5 3 (fun _ => true) (fun _ => 77)).numDictVals = 1 ∧
     (fragInit 5 3 (fun _ => true) (fun _ => 77)).totalDupes = 3 - 1 ∧
     (fragInit 5 3 (fun _ => true) (fun _ => 77)).dictIndexWrites =
       (List.range (3 - 1)).map (fun k => (5 + (k + 1), 5 ||| 2 ^ 31)) ∧
     (fragInit 5 3 (fun _ => true) (fun _ => 77)).dictDataWrites = [(5, 0)]) :=
  ⟨by omega, C2_constant_dictionary 3 77 5 (by omega)⟩

/-- C3: the choice of which row becomes the canonical dictionary owner of
a hash bucket is deterministic and data-dependent only.  The serialised
claim order of each 512-entry batch of the atomic insertion loop is an
arbitrary permutation of the batch's entries; for any two such order
schedules, the value the collision resolution (atomic-minimum plus
verification re-read) leaves in the bucket's first slot is the same. -/
theorem C3_owner_selection_deterministic (entries : List Nat) (dict0 : Nat → Nat)
    (orders1 orders2 : List (List Nat))
    (hord1 : List.Forall₂ (fun o b => o.Perm b) orders1 (chunks512 entries))
    (hord2 : List.Forall₂ (fun o b => o.Perm b) orders2 (chunks512 entries))
    (hbound : ∀ e ∈ entries, e < 2 ^ 62) (h : Nat) (hpos : 0 < cntB entries h) :
    (insertPhase (bucketStart entries) dict0 orders1).2 (bucketStart entries h) =
      (insertPhase (bucketStart entries) dict0 orders2).2 (bucketStart entries h) := by
  have hfl : (chunks512 entries).flatten = entries :=
    chunks512_flatten entries.length entries (Nat.le_refl _)
  have hsep : ∀ g g', g ≠ g' → 0 < cntB (chunks512 entries).flatten g →
      0 < cntB (chunks512 entries).flatten g' →
      bucketStart entries g + cntB (chunks512 entries).flatten g ≤ bucketStart entries g' ∨
      bucketStart entries g' + cntB (chunks512 entries).flatten g' ≤ bucketStart entries g := by
    intro g g' hne _ _
    rw [hfl]
    rcases Nat.lt_or_ge g g' with hlt | hge
    · left
      exact bucketStart_le entries g g' hlt
    · right
      exact bucketStart_le entries g' g (by omega)
  have hbound' : ∀ e ∈ (chunks512 entries).flatten, e < 2 ^ 62 := by
    rw [hfl]
    exact hbound
  have hpos' : 0 < cntB (chunks512 entries).flatten h := by
    rw [hfl]
    exact hpos
  have h1 := (insertPhase_spec hord1 (bucketStart entries) dict0 hsep hbound').1 h hpos'
  have h2 := (insertPhase_spec hord2 (bucketStart entries) dict0 hsep hbound').1 h hpos'
  rw [h1, h2]

theorem C3_witness :
    List.Forall₂ (fun o b => o.Perm b) [[4105, 9, 8201]] (chunks512 [9, 4105, 8201]) ∧
    List.Forall₂ (fun o b => o.Perm b) [[9, 4105, 8201]] (chunks512 [9, 4105, 8201]) ∧
    (∀ e ∈ [9, 4105, 8201], e < 2 ^ 62) ∧ 0 < cntB [9, 4105, 8201] 9 ∧
    (insertPhase (bucketStart [9, 4105, 8201]) (fun _ => 0) [[4105, 9, 8201]]).2
        (bucketStart [9, 4105, 8201] 9) =
      (insertPhase (bucketStart [9, 4105, 8201]) (fun _ => 0) [[9, 4105, 8201]]).2
        (bucketStart [9, 4105, 8201] 9) := by
  have hch : chunks512 [9, 4105, 8201] = [[9, 4105, 8201]] := by decide
  have hf1 : List.Forall₂ (fun o b => o.Perm b) [[4105, 9, 8201]]
      (chunks512 [9, 4105, 8201]) := by
    rw [hch]
    exact List.Forall₂.cons (List.Perm.swap 9 4105 [8201]) List.Forall₂.nil
  have hf2 : List.Forall₂ (fun o b => o.Perm b) [[9, 4105, 8201]]
      (chunks512 [9, 4105, 8201]) := by
    rw [hch]
    exact List.Forall₂.cons (List.Perm.refl _) List.Forall₂.nil
  have hb : ∀ e ∈ [9, 4105, 8201], e < 2 ^ 62 := by decide
  have hp : 0 < cntB [9, 4105, 8201] 9 := by decide
  exact ⟨hf1, hf2, hb, hp,
    C3_owner_selection_deterministic [9, 4105, 8201] (fun _ => 0) [[4105, 9, 8201]]
      [[9, 4105, 8201]] hf1 hf2 hb 9 hp⟩

end PageEnc
